import Mathlib

/-!
# Verification of the `solidify` record-consolidation engine

Shallow embedding of the core consolidation engine
(`src/solidifier/mod.rs`, `src/solidifier/sheet.rs`, `src/solidifier/keys.rs`)
of the `solidify` repository, together with theorems settling the claims
about column resolution, key derivation, grouping, merging, ambiguity
detection, and similarity diagnostics.

Rust `Vec` becomes `List`; `&str`/`String` become `String`; `usize`/`i32`
become `Nat`/`Int` (indices are validated in-bounds and never overflow);
fallible functions (`anyhow::Result`) return `Except SolidifyError`; the
distinct error messages of the source become the constructors of
`SolidifyError`.  The `HashMap<Key, _>` of `match_and_merge` becomes an
association list keyed by decidable `Key` equality; lookup, `entry`-style
insertion and removal are modelled explicitly.  Diagnostics printed by
`warn` (a pure side effect on stderr) are accumulated in the result state.
-/

namespace Solidify

/-- `RecordId` from `src/solidifier/keys.rs`: identifies one physical row. -/
structure RecordId where
  input_index : Nat
  row_index : Nat
deriving DecidableEq, Repr

/-- `KeyItem` from `src/solidifier/keys.rs`: one component of a row's key,
either borrowed cell text or the row's synthetic identity. -/
inductive KeyItem where
  | Data : String → KeyItem
  | Id : RecordId → KeyItem
deriving DecidableEq, Repr

/-- `Key` from `src/solidifier/keys.rs`: the ordered sequence of key items
(the struct is a transparent wrapper around `Vec<KeyItem>`). -/
abbrev Key := List KeyItem

/-- Insert into a sorted list, used to model `Vec::sort` on the key column
offsets (`KeyColumns::sorted`); on `Nat` any correct sort produces the same
list as Rust's `sort`. -/
def insertSorted (x : Nat) : List Nat → List Nat
  | [] => [x]
  | y :: ys => if x ≤ y then x :: y :: ys else y :: insertSorted x ys

/-- Sorting by repeated insertion; models `values.sort()` in
`KeyColumns::sorted`. -/
def sortNat (l : List Nat) : List Nat := l.foldr insertSorted []

/-- `KeyColumns` from `src/solidifier/sheet.rs`: the resolved key column
offsets in user order (`original`, `None` = synthetic identity) and the
real offsets sorted ascending (`sorted`). -/
structure KeyColumns where
  original : List (Option Nat)
  sorted : List Nat
deriving DecidableEq, Repr, Inhabited

/-- `KeyColumns::sorted`: flat-map the real offsets out of `original` and
sort them. -/
def KeyColumns.sorted_of (original : List (Option Nat)) : List Nat :=
  sortNat (original.flatMap (fun column =>
    match column with
    | some index => [index]
    | none => []))

/-- `KeyColumns::new`. -/
def KeyColumns.new (original : List (Option Nat)) : KeyColumns :=
  { original := original, sorted := KeyColumns.sorted_of original }

/-- `SheetRowSection` from `src/solidifier/sheet.rs`: a row split into
alternating single key cells and runs of non-key cells. -/
inductive SheetRowSection where
  | Key : String → SheetRowSection
  | NonKey : List String → SheetRowSection
deriving DecidableEq, Repr

/-- The half-open slice `data[a..b]` of integer positions, as used by
`((key + 1)..next_key)` in `KeyColumns::split`.  Out-of-range reads (which
would panic in Rust and are proved unreachable) default to `""`. -/
def intSlice (data : List String) (a b : Int) : List String :=
  (List.range (b - a).toNat).map (fun t : Nat => data.getD (a + (t : Int)).toNat "")

/-- `KeyColumns::split`: walk the sorted key offsets chained between the
sentinels `-1` and `data.len()`, emitting a `Key` section at every real
offset and a `NonKey` section for every gap (including empty gaps). -/
def KeyColumns.split (kc : KeyColumns) (data : List String) : List SheetRowSection :=
  let indices : List Int := kc.sorted.map (fun index : Nat => (index : Int))
  (((-1 : Int) :: indices).zip (indices ++ [(data.length : Int)])).flatMap
    (fun p =>
      (if 0 ≤ p.1 then [SheetRowSection.Key (data.getD p.1.toNat "")] else [])
      ++ [SheetRowSection.NonKey (intSlice data (p.1 + 1) p.2)])

/-- `Sheet` from `src/solidifier/sheet.rs`. -/
structure Sheet where
  rows : List (List String)
  column_count : Nat
  input_index : Nat
  key_columns : KeyColumns
deriving DecidableEq, Repr, Inhabited

/-- The distinct terminal errors of the engine (`anyhow` messages in the
source, one constructor per `bail!`/`ensure!` site relevant to the core). -/
inductive SolidifyError where
  | columnOutOfBounds : Int → Nat → SolidifyError
  | irregularShape : Nat → Nat → Nat → SolidifyError
  | columnOrderingConflict : Int → Int → SolidifyError
  | ambiguousMerge : Key → SolidifyError
  | degenerateInput : SolidifyError
deriving DecidableEq, Repr

/-- `Sheet::normalize_column`: `0 ↦ None`; positive `n ↦ n-1`; negative
`n ↦ count+n`; out-of-range results are rejected. -/
def Sheet.normalize_column (column : Int) (count : Nat) : Except SolidifyError (Option Nat) :=
  if column = 0 then
    Except.ok none
  else
    let normalized : Int := if 0 < column then column - 1 else (count : Int) + column
    if 0 ≤ normalized ∧ normalized < (count : Int) then
      Except.ok (some normalized.toNat)
    else
      Except.error (SolidifyError.columnOutOfBounds column count)

/-- `Sheet::check_rectangular`: the shared column count, or the first row
(0-based index recorded) whose length differs from the first row's. -/
def Sheet.check_rectangular (data : List (List String)) : Except SolidifyError Nat :=
  match data with
  | [] => Except.ok 0
  | first :: _ =>
    match data.enum.find? (fun p => p.2.length ≠ first.length) with
    | some p => Except.error (SolidifyError.irregularShape first.length p.2.length p.1)
    | none => Except.ok first.length

/-- The `for column in columns` loop of `Sheet::check_convert_columns`:
normalize each spec in order, the first failure wins. -/
def convertColumns (columns : List Int) (count : Nat) :
    Except SolidifyError (List (Option Nat)) :=
  match columns with
  | [] => Except.ok []
  | column :: rest => do
    let normalized ← Sheet.normalize_column column count
    let rest_normalized ← convertColumns rest count
    Except.ok (normalized :: rest_normalized)

/-- `Sheet::check_convert_columns`: normalize every spec (first failure
wins), then reject when the largest positive and smallest negative spec
span more than the column count. -/
def Sheet.check_convert_columns (columns : List Int) (count : Nat) :
    Except SolidifyError (List (Option Nat)) := do
  let result ← convertColumns columns count
  let largest_positive := (columns.filter (fun value => 0 < value)).max?
  let smallest_negative := (columns.filter (fun value => value < 0)).min?
  match largest_positive, smallest_negative with
  | some largest, some smallest =>
    if largest - smallest ≤ (count : Nat) then
      Except.ok result
    else
      Except.error (SolidifyError.columnOrderingConflict largest smallest)
  | _, _ => Except.ok result

/-- `Sheet::new`. -/
def Sheet.new (rows : List (List String)) (key_columns : List Int) (input_index : Nat) :
    Except SolidifyError Sheet := do
  let column_count ← Sheet.check_rectangular rows
  let converted ← Sheet.check_convert_columns key_columns column_count
  Except.ok { rows := rows, column_count := column_count, input_index := input_index,
              key_columns := KeyColumns.new converted }

/-- `Sheet::split_empty_by_key`: split a synthetic all-filler row. -/
def Sheet.split_empty_by_key (sheet : Sheet) (filler : String) : List SheetRowSection :=
  sheet.key_columns.split (List.replicate sheet.column_count filler)

/-- `SheetRow` from `src/solidifier/sheet.rs`: a sheet together with a row
index; its `RecordId` is `(sheet.input_index, row_index)` exactly as
produced by `SheetIterator::next`. -/
structure SheetRow where
  sheet : Sheet
  row_index : Nat
deriving DecidableEq, Repr

/-- The `RecordId` stored in a `SheetRow` by `SheetIterator::next`. -/
def SheetRow.id (row : SheetRow) : RecordId :=
  { input_index := row.sheet.input_index, row_index := row.row_index }

/-- `SheetRow::data` (always in bounds for iterator-produced rows). -/
def SheetRow.data (row : SheetRow) : List String :=
  row.sheet.rows.getD row.row_index []

/-- `SheetRow::key`: visit the key columns in user order; a real offset
contributes the cell text, the synthetic marker contributes the row id. -/
def SheetRow.key (row : SheetRow) : Key :=
  row.sheet.key_columns.original.map (fun column =>
    match column with
    | some index => KeyItem.Data (row.data.getD index "")
    | none => KeyItem.Id row.id)

/-- `SheetRow::split_by_key`. -/
def SheetRow.split_by_key (row : SheetRow) : List SheetRowSection :=
  row.sheet.key_columns.split row.data

/-- The rows of a sheet in order, as produced by `SheetIterator`. -/
def Sheet.toRows (sheet : Sheet) : List SheetRow :=
  (List.range sheet.rows.length).map (fun index => { sheet := sheet, row_index := index })

/-- `ParamNames` from `src/params.rs` (flag names used in messages). -/
structure ParamNames where
  allow_single_column : String
  allow_multi_merge : String
deriving DecidableEq, Repr

/-- The fields of `Params` (`src/params.rs`) consumed by the consolidation
engine.  `similarity_warn_level` is the `u32` threshold compared against
edit distances in `match_and_merge` (`0` disables the diagnostics);
`allow_single_column` is the override read by `ensure_proper_delimiter`. -/
structure Params where
  allow_single_column : Bool
  allow_multi_merge : Bool
  filler : String
  similarity_warn_level : Nat
  warn_unmatched : Bool
  names : ParamNames
deriving DecidableEq, Repr

/-- Whether a section is a `Key` section (used to state shape facts). -/
def isKeySection : SheetRowSection → Bool
  | SheetRowSection.Key _ => true
  | SheetRowSection.NonKey _ => false

/-- The one iteration of `merge_row`'s inner loop: the accumulator carries
the output cells so far and the `seen_filled` flag. -/
def mergeSectionStep (section_index : Nat) (acc : List String × Bool)
    (entry : List SheetRowSection × Bool) : List String × Bool :=
  match entry.1.getD section_index (SheetRowSection.NonKey []) with
  | SheetRowSection.Key value =>
    if entry.2 && !acc.2 then (acc.1 ++ [value], true) else acc
  | SheetRowSection.NonKey values => (acc.1 ++ values, acc.2)

/-- The cells `merge_row` emits for one section position: walk the sources
in order; the first filled source's key cell wins, non-key cells are all
concatenated. -/
def mergeSection (split : List (List SheetRowSection × Bool)) (section_index : Nat) :
    List String :=
  (split.foldl (mergeSectionStep section_index) ([], false)).1

/-- The `split` vector computed at the top of `merge_row`: each source's
real row split by key (flag `true`), or the synthetic all-filler row's
split (flag `false`) when the source has no row at this pairing index. -/
def mergeSplit (data : List (Option SheetRow × Sheet)) (params : Params) :
    List (List SheetRowSection × Bool) :=
  data.map (fun p =>
    match p.1 with
    | some row => (row.split_by_key, true)
    | none => (p.2.split_empty_by_key params.filler, false))

/-- `merge_row` from `src/solidifier/mod.rs`: split every source's row (or
its synthetic all-filler row), then emit the sections in lockstep.  The
source `assert!`s that all section lists have the first one's length; the
claim about that assertion is settled separately, and the embedding reads
missing positions as empty `NonKey` sections (irrelevant when the
assertion holds). -/
def merge_row (data : List (Option SheetRow × Sheet)) (params : Params) : List String :=
  let split := mergeSplit data params
  match split.head? with
  | none => []
  | some first =>
    (List.range first.1.length).flatMap (fun section_index => mergeSection split section_index)

/-- `merge` from `src/solidifier/mod.rs`: pair the per-source row lists
positionally up to the longest list. -/
def merge (data : List (List SheetRow × Sheet)) (params : Params) : List (List String) :=
  let max_length := ((data.map (fun p => p.1.length)).max?).getD 0
  (List.range max_length).map (fun index =>
    merge_row (data.map (fun p => (p.1[index]?, p.2))) params)

/-- One step of the Wagner–Fischer row recurrence; models the
`edit_distance` crate's Levenshtein distance used by `compare_strings`. -/
def nextRow (x : Char) (b : List Char) (prev : List Nat) : List Nat :=
  let start := prev.headD 0 + 1
  ((b.zip (prev.zip prev.tail)).foldl
    (fun acc p =>
      let v := min (p.2.2 + 1) (min (acc.2 + 1) (p.2.1 + (if x = p.1 then 0 else 1)))
      (acc.1 ++ [v], v))
    ([start], start)).1

/-- Levenshtein edit distance (dynamic programming over rows); models the
`edit_distance` crate called by `compare_strings`. -/
def editDistance (a b : List Char) : Nat :=
  (a.foldl (fun prev x => nextRow x b prev) (List.range (b.length + 1))).getLastD 0

/-- `compare_strings` from `src/solidifier/mod.rs`. -/
def compare_strings (a b : String) : Nat := editDistance a.data b.data

/-- `compare_key_items`: `Data` vs `Data` compares the texts, any pairing
involving an `Id` contributes `0`. -/
def compare_key_items : KeyItem → KeyItem → Nat
  | KeyItem.Data a, KeyItem.Data b => compare_strings a b
  | _, _ => 0

/-- `compare_keys`: sum of the item comparisons over zipped positions. -/
def compare_keys (a b : Key) : Nat :=
  ((a.zip b).map (fun p => compare_key_items p.1 p.2)).sum

/-- `vec![vec![]; sheets.len()]`: the freshly inserted group value. -/
def emptyGroup (n : Nat) : List (List SheetRow) := List.replicate n []

/-- `entry[*sheet_index].push(&row)`. -/
def pushRow (group : List (List SheetRow)) (sheet_index : Nat) (row : SheetRow) :
    List (List SheetRow) :=
  group.set sheet_index (group.getD sheet_index [] ++ [row])

/-- `by_key.entry(key).or_insert_with(..)` followed by the push, on the
association-list model of the hash map (a fresh key goes to the end). -/
def insertByKey (m : List (Key × List (List SheetRow))) (k : Key) (sheet_index n : Nat)
    (row : SheetRow) : List (Key × List (List SheetRow)) :=
  match m with
  | [] => [(k, pushRow (emptyGroup n) sheet_index row)]
  | e :: rest =>
    if e.1 = k then (e.1, pushRow e.2 sheet_index row) :: rest
    else e :: insertByKey rest k sheet_index n row

/-- Association-list lookup (`HashMap::get`-style, used to model
`HashMap::remove`'s returned value). -/
def lookupKey {α : Type} (m : List (Key × α)) (k : Key) : Option α :=
  match m with
  | [] => none
  | e :: rest => if e.1 = k then some e.2 else lookupKey rest k

/-- Association-list removal (the map part of `HashMap::remove`). -/
def removeKey {α : Type} (m : List (Key × α)) (k : Key) : List (Key × α) :=
  match m with
  | [] => []
  | e :: rest => if e.1 = k then rest else e :: removeKey rest k

/-- The `rows` vector of `match_and_merge`: every row of every sheet with
its sheet index, sheets in supplied order, rows top to bottom. -/
def allRows (sheets : List Sheet) : List (SheetRow × Nat) :=
  sheets.enum.flatMap (fun p => p.2.toRows.map (fun row => (row, p.1)))

/-- The `keys` vector of `match_and_merge` (one key per row, same order). -/
def allKeys (sheets : List Sheet) : List Key :=
  (allRows sheets).map (fun p => p.1.key)

/-- The fully built `by_key` map of `match_and_merge`. -/
def buildByKey (sheets : List Sheet) : List (Key × List (List SheetRow)) :=
  (allRows sheets).foldl (fun m p => insertByKey m p.1.key p.2 sheets.length p.1) []

/-- The mutable state of `match_and_merge`'s consumption loop: the pending
map, the merged output, and the emitted diagnostics.  `comparisons` is a
ghost trace recording exactly the pairs visited by the similarity loop
(`for another_key in by_key.keys()`); it influences nothing else. -/
structure MergeState where
  byKey : List (Key × List (List SheetRow))
  merged : List (List String)
  unmatchedWarnings : List Key
  simWarnings : List (Key × Key × Nat)
  comparisons : List (Key × Key)
deriving DecidableEq, Repr

/-- The condition of the `ensure!` guarding a group's merge: multi-merge
allowed, or every source has at most one row, or at most one source has
any rows. -/
def mergeAllowed (row_sets : List (List SheetRow)) (params : Params) : Bool :=
  params.allow_multi_merge
  || row_sets.all (fun set => set.length ≤ 1)
  || (row_sets.filter (fun set => 0 < set.length)).length ≤ 1

/-- One iteration of `for key in &keys` in `match_and_merge`: skip keys
whose group was already consumed, fail on an ambiguous group, otherwise
append the merged rows and the diagnostics for this group. -/
def consumeKey (sheets : List Sheet) (params : Params)
    (st : Except SolidifyError MergeState) (k : Key) : Except SolidifyError MergeState :=
  match st with
  | Except.error e => Except.error e
  | Except.ok s =>
    match lookupKey s.byKey k with
    | none => Except.ok s
    | some row_sets =>
      if mergeAllowed row_sets params then
        let rest := removeKey s.byKey k
        let merged := s.merged ++ merge (row_sets.zip sheets) params
        let unmatched :=
          if params.warn_unmatched
              && row_sets.any (fun set => set.length ≠ (row_sets.headD []).length) then
            s.unmatchedWarnings ++ [k]
          else s.unmatchedWarnings
        if 0 < params.similarity_warn_level then
          let comps := rest.map (fun e => (k, e.1))
          let warns := comps.filterMap (fun p =>
            let distance := compare_keys p.1 p.2
            if distance ≤ params.similarity_warn_level then some (p.1, p.2, distance)
            else none)
          Except.ok { byKey := rest, merged := merged, unmatchedWarnings := unmatched,
                      simWarnings := s.simWarnings ++ warns,
                      comparisons := s.comparisons ++ comps }
        else
          Except.ok { byKey := rest, merged := merged, unmatchedWarnings := unmatched,
                      simWarnings := s.simWarnings, comparisons := s.comparisons }
      else
        Except.error (SolidifyError.ambiguousMerge k)

/-- The state entering the consumption loop. -/
def initState (sheets : List Sheet) : MergeState :=
  { byKey := buildByKey sheets, merged := [], unmatchedWarnings := [],
    simWarnings := [], comparisons := [] }

/-- `match_and_merge` from `src/solidifier/mod.rs`, returning the full
final state (the source returns `merged` and prints the diagnostics). -/
def match_and_merge (sheets : List Sheet) (params : Params) :
    Except SolidifyError MergeState :=
  (allKeys sheets).foldl (consumeKey sheets params) (Except.ok (initState sheets))

/-- The merged table `match_and_merge` returns in the source. -/
def matchAndMergeRows (sheets : List Sheet) (params : Params) :
    Except SolidifyError (List (List String)) :=
  (match_and_merge sheets params).map (fun s => s.merged)

/-- The sheet-construction loop of `solidify`, starting at a given input
index: each input becomes a `Sheet` with its position as `input_index`;
the first failure wins. -/
def mkSheetsFrom (datas : List (List (List String))) (key_columns : List Int) (index : Nat) :
    Except SolidifyError (List Sheet) :=
  match datas with
  | [] => Except.ok []
  | d :: rest => do
    let sheet ← Sheet.new d key_columns index
    let sheets ← mkSheetsFrom rest key_columns (index + 1)
    Except.ok (sheet :: sheets)

/-- The sheet-construction loop of `solidify` over all inputs. -/
def mkSheets (datas : List (List (List String))) (key_columns : List Int) :
    Except SolidifyError (List Sheet) :=
  mkSheetsFrom datas key_columns 0

/-- `ensure_proper_delimiter` from `src/solidifier/mod.rs`: pass when the
override flag is set or some row of some sheet has more than one column,
otherwise fail with the degenerate-input error. -/
def ensure_proper_delimiter (sheets : List Sheet) (params : Params) :
    Except SolidifyError Unit :=
  if params.allow_single_column
      || sheets.any (fun sheet => sheet.toRows.any (fun row => 1 < row.data.length)) then
    Except.ok ()
  else
    Except.error SolidifyError.degenerateInput

/-- The consolidation pipeline of `solidify` minus file I/O: build the
sheets, run the delimiter sanity check, then match and merge. -/
def solidifyData (datas : List (List (List String))) (key_columns : List Int)
    (params : Params) : Except SolidifyError (List (List String)) := do
  let sheets ← mkSheets datas key_columns
  let _ ← ensure_proper_delimiter sheets params
  matchAndMergeRows sheets params

/-! ## Generic list helpers -/

theorem range_map_getD {α β : Type} (l : List α) (d : α) (g : α → β) :
    (List.range l.length).map (fun i => g (l.getD i d)) = l.map g := by
  induction l with
  | nil => simp
  | cons x xs ih =>
    rw [List.length_cons, List.range_succ_eq_map]
    simp only [List.map_cons, List.map_map]
    refine congrArg₂ _ (by simp) ?_
    rw [← ih]
    refine List.map_congr_left ?_
    intro i _
    simp [Function.comp]

theorem range_flatMap_getD {α β : Type} (l : List α) (d : α) (g : α → List β) :
    (List.range l.length).flatMap (fun i => g (l.getD i d)) = l.flatMap g := by
  induction l with
  | nil => simp
  | cons x xs ih =>
    rw [List.length_cons, List.range_succ_eq_map]
    simp only [List.flatMap_cons, List.map_map]
    rw [List.flatMap_map]
    refine congrArg₂ _ (by simp) ?_
    rw [← ih]
    refine List.flatMap_congr ?_
    intro i _
    simp [Function.comp]

/-! ## Restructuring `KeyColumns::split` for induction -/

/-- The half-open slice `data[a..b]` over `Nat` positions. -/
def slice (data : List String) (a b : Nat) : List String :=
  (List.range (b - a)).map (fun t => data.getD (a + t) "")

/-- Recursive presentation of `KeyColumns::split`: `start` is the first
position not yet emitted; each sorted key offset emits the gap before it
and its own `Key` cell. -/
def splitRec (data : List String) : Nat → List Nat → List SheetRowSection
  | start, [] => [SheetRowSection.NonKey (slice data start data.length)]
  | start, i :: rest =>
    SheetRowSection.NonKey (slice data start i) :: SheetRowSection.Key (data.getD i "")
      :: splitRec data (i + 1) rest

theorem intSlice_eq_slice (data : List String) (a b : Int) (ha : 0 ≤ a) :
    intSlice data a b = slice data a.toNat b.toNat := by
  unfold intSlice slice
  have hr : (b - a).toNat = b.toNat - a.toNat := by omega
  rw [hr]
  refine List.map_congr_left ?_
  intro t _
  congr 1
  omega

theorem chain_splitRec (data : List String) (l : List Nat) :
    ∀ (prev : Int), -1 ≤ prev →
    ((prev :: l.map (fun index : Nat => (index : Int))).zip
        (l.map (fun index : Nat => (index : Int)) ++ [(data.length : Int)])).flatMap
      (fun p =>
        (if 0 ≤ p.1 then [SheetRowSection.Key (data.getD p.1.toNat "")] else [])
        ++ [SheetRowSection.NonKey (intSlice data (p.1 + 1) p.2)])
    = (if 0 ≤ prev then [SheetRowSection.Key (data.getD prev.toNat "")] else [])
      ++ splitRec data (prev + 1).toNat l := by
  induction l with
  | nil =>
    intro prev hprev
    simp only [List.map_nil, List.nil_append, List.zip_cons_cons, List.zip_nil_right,
      List.flatMap_cons, List.flatMap_nil, List.append_nil, splitRec]
    rw [intSlice_eq_slice data (prev + 1) (data.length : Int) (by omega)]
    simp
  | cons i rest ih =>
    intro prev hprev
    have hi : (-1 : Int) ≤ (i : Int) := by omega
    have hstep := ih (i : Int) hi
    simp only [List.map_cons, List.cons_append, List.zip_cons_cons, List.flatMap_cons]
      at hstep ⊢
    rw [hstep]
    rw [intSlice_eq_slice data (prev + 1) (i : Int) (by omega)]
    simp only [splitRec, Int.toNat_natCast]
    have h1 : ((i : Int) + 1).toNat = i + 1 := by omega
    have h2 : (0 : Int) ≤ (i : Int) := by omega
    rw [h1, if_pos h2]
    simp

theorem split_eq_splitRec (kc : KeyColumns) (data : List String) :
    kc.split data = splitRec data 0 kc.sorted := by
  have h := chain_splitRec data kc.sorted (-1) (by omega)
  simp only [show ¬((0 : Int) ≤ -1) by omega, if_neg, List.nil_append] at h
  simpa [KeyColumns.split] using h

/-- The kind pattern of a split: one leading `NonKey`, then a
`Key`/`NonKey` pair per sorted key offset, independent of the data. -/
theorem splitRec_map_isKey (data : List String) (l : List Nat) :
    ∀ start, (splitRec data start l).map isKeySection
      = false :: l.flatMap (fun _ => [true, false]) := by
  induction l with
  | nil => intro start; simp [splitRec, isKeySection]
  | cons i rest ih =>
    intro start
    simp [splitRec, isKeySection, ih (i + 1)]

theorem splitRec_length (data : List String) (l : List Nat) :
    ∀ start, (splitRec data start l).length = 2 * l.length + 1 := by
  induction l with
  | nil => intro start; rfl
  | cons i rest ih =>
    intro start
    simp only [splitRec, List.length_cons, ih (i + 1)]
    omega

theorem split_map_isKey (kc : KeyColumns) (data : List String) :
    (kc.split data).map isKeySection
      = false :: kc.sorted.flatMap (fun _ => [true, false]) := by
  rw [split_eq_splitRec]; exact splitRec_map_isKey data kc.sorted 0

theorem split_length (kc : KeyColumns) (data : List String) :
    (kc.split data).length = 2 * kc.sorted.length + 1 := by
  rw [split_eq_splitRec]; exact splitRec_length data kc.sorted 0

/-! ## Unfolding `Except` binds -/

theorem except_ok_bind {ε α β : Type} (a : α) (f : α → Except ε β) :
    (Except.ok a : Except ε α) >>= f = f a := rfl

theorem except_error_bind {ε α β : Type} (e : ε) (f : α → Except ε β) :
    (Except.error e : Except ε α) >>= f = Except.error e := rfl

theorem except_pure {ε α : Type} (a : α) : (pure a : Except ε α) = Except.ok a := rfl

/-! ## Counting the real key columns -/

theorem length_insertSorted (x : Nat) (l : List Nat) :
    (insertSorted x l).length = l.length + 1 := by
  induction l with
  | nil => rfl
  | cons y ys ih =>
    by_cases h : x ≤ y
    · simp [insertSorted, h]
    · simp [insertSorted, h, ih]

theorem length_sortNat (l : List Nat) : (sortNat l).length = l.length := by
  induction l with
  | nil => rfl
  | cons x xs ih => simp [sortNat, length_insertSorted, List.foldr] at ih ⊢; omega

theorem length_flatMap_option (l : List (Option Nat)) :
    (l.flatMap (fun column =>
      match column with
      | some index => [index]
      | none => [])).length = (l.filter (fun o => o.isSome)).length := by
  induction l with
  | nil => rfl
  | cons o os ih => cases o <;> simp [ih]

theorem normalize_column_isSome {column : Int} {count : Nat} {o : Option Nat}
    (h : Sheet.normalize_column column count = Except.ok o) :
    (o.isSome = true) ↔ column ≠ 0 := by
  by_cases hz : column = 0
  · subst hz
    simp [Sheet.normalize_column] at h
    subst h
    simp
  · simp only [Sheet.normalize_column, if_neg hz] at h
    by_cases hb : (0 : Int) ≤ (if 0 < column then column - 1 else (count : Int) + column)
        ∧ (if 0 < column then column - 1 else (count : Int) + column) < (count : Int)
    · rw [if_pos hb] at h
      cases h
      simp [hz]
    · rw [if_neg hb] at h
      cases h

theorem convertColumns_count_nonzero {columns : List Int} {count : Nat}
    {res : List (Option Nat)} (h : convertColumns columns count = Except.ok res) :
    (res.filter (fun o => o.isSome)).length
      = (columns.filter (fun c => c ≠ 0)).length := by
  induction columns generalizing res with
  | nil =>
    simp only [convertColumns] at h
    cases h
    rfl
  | cons c cs ih =>
    simp only [convertColumns] at h
    cases hn : Sheet.normalize_column c count with
    | error e => rw [hn, except_error_bind] at h; cases h
    | ok o =>
      rw [hn, except_ok_bind] at h
      cases hr : convertColumns cs count with
      | error e => rw [hr, except_error_bind] at h; cases h
      | ok os =>
        rw [hr, except_ok_bind] at h
        cases h
        have hiff := normalize_column_isSome hn
        by_cases hz : c = 0
        · have : o.isSome = false := by
            cases ho : o.isSome
            · rfl
            · exact absurd (hiff.mp ho) (by simp [hz])
          simp [hz, this, ih hr]
        · have : o.isSome = true := by
            cases ho : o.isSome
            · exact absurd (hiff.mpr hz) (by simp [ho])
            · rfl
          simp [hz, this, ih hr]

/-! ## Eliminating successful constructions -/

theorem check_convert_columns_ok {columns : List Int} {count : Nat}
    {res : List (Option Nat)}
    (h : Sheet.check_convert_columns columns count = Except.ok res) :
    convertColumns columns count = Except.ok res := by
  simp only [Sheet.check_convert_columns] at h
  cases hc : convertColumns columns count with
  | error e => rw [hc, except_error_bind] at h; cases h
  | ok r =>
    rw [hc, except_ok_bind] at h
    split at h
    · split at h
      · cases h; rfl
      · cases h
    · cases h; rfl

theorem Sheet.new_ok {rows : List (List String)} {specs : List Int} {idx : Nat} {s : Sheet}
    (h : Sheet.new rows specs idx = Except.ok s) :
    ∃ count conv, Sheet.check_rectangular rows = Except.ok count
      ∧ convertColumns specs count = Except.ok conv
      ∧ s = { rows := rows, column_count := count, input_index := idx,
              key_columns := KeyColumns.new conv } := by
  simp only [Sheet.new] at h
  cases hr : Sheet.check_rectangular rows with
  | error e => rw [hr, except_error_bind] at h; cases h
  | ok count =>
    rw [hr, except_ok_bind] at h
    cases hc : Sheet.check_convert_columns specs count with
    | error e => rw [hc, except_error_bind] at h; cases h
    | ok conv =>
      rw [hc, except_ok_bind] at h
      cases h
      exact ⟨count, conv, rfl, check_convert_columns_ok hc, rfl⟩

theorem mkSheetsFrom_ok {datas : List (List (List String))} {specs : List Int}
    {start : Nat} {sheets : List Sheet}
    (h : mkSheetsFrom datas specs start = Except.ok sheets) :
    sheets.length = datas.length
    ∧ ∀ i (hi : i < sheets.length),
        Sheet.new (datas.getD i []) specs (start + i) = Except.ok (sheets.getD i default) := by
  induction datas generalizing start sheets with
  | nil =>
    simp only [mkSheetsFrom] at h
    cases h
    exact ⟨rfl, by intro i hi; simp at hi⟩
  | cons d rest ih =>
    simp only [mkSheetsFrom] at h
    cases hn : Sheet.new d specs start with
    | error e => rw [hn, except_error_bind] at h; cases h
    | ok s =>
      rw [hn, except_ok_bind] at h
      cases hr : mkSheetsFrom rest specs (start + 1) with
      | error e => rw [hr, except_error_bind] at h; cases h
      | ok ss =>
        rw [hr, except_ok_bind] at h
        cases h
        obtain ⟨hlen, hall⟩ := ih hr
        refine ⟨by simp [hlen], ?_⟩
        intro i hi
        cases i with
        | zero => simpa using hn
        | succ j =>
          have hj : j < ss.length := by simpa using hi
          have := hall j hj
          simpa [Nat.add_assoc, Nat.add_comm 1 j] using this

/-- The column layout facts C10 needs about any successfully built sheet:
the sorted key offsets number exactly the non-zero specs. -/
theorem sheet_sorted_length {rows : List (List String)} {specs : List Int} {idx : Nat}
    {s : Sheet} (h : Sheet.new rows specs idx = Except.ok s) :
    s.key_columns.sorted.length = (specs.filter (fun c => c ≠ 0)).length := by
  obtain ⟨count, conv, _, hconv, hs⟩ := Sheet.new_ok h
  subst hs
  simp only [KeyColumns.new, KeyColumns.sorted_of]
  rw [length_sortNat, length_flatMap_option]
  exact convertColumns_count_nonzero hconv

theorem flatMap_const {α β : Type} (l : List α) (c : List β) :
    l.flatMap (fun _ => c) = (List.replicate l.length c).flatten := by
  induction l with
  | nil => rfl
  | cons x xs ih => simp [ih, List.replicate_succ]

theorem mem_toRows {s : Sheet} {row : SheetRow} (h : row ∈ s.toRows) :
    row.sheet = s ∧ row.row_index < s.rows.length := by
  simp only [Sheet.toRows, List.mem_map, List.mem_range] at h
  obtain ⟨i, hi, hrow⟩ := h
  subst hrow
  exact ⟨rfl, hi⟩

theorem mkSheets_mem {datas : List (List (List String))} {specs : List Int}
    {sheets : List Sheet} (h : mkSheets datas specs = Except.ok sheets)
    {s : Sheet} (hs : s ∈ sheets) :
    ∃ rows idx, Sheet.new rows specs idx = Except.ok s := by
  obtain ⟨_, hall⟩ := mkSheetsFrom_ok h
  obtain ⟨i, hi, hget⟩ := List.mem_iff_getElem.mp hs
  refine ⟨datas.getD i [], 0 + i, ?_⟩
  have := hall i hi
  rwa [List.getD_eq_getElem sheets default hi, hget] at this

/-- C10: every row split and every synthetic filler-row split of any sheet
built from the same key-column specs has exactly `2k+1` alternating
sections (`k` = number of non-zero specs, with multiplicity), the section
at position `j` being a key section exactly for odd `j`; hence the
`assert!` in `merge_row` (all sources' section lists share the first one's
length, and kinds align) never fails. -/
theorem split_sections_uniform :
    ∀ (datas : List (List (List String))) (specs : List Int) (sheets : List Sheet),
      mkSheets datas specs = Except.ok sheets →
      ∀ s ∈ sheets,
        (∀ row ∈ s.toRows,
          (row.split_by_key).map isKeySection
              = false ::
                (List.replicate ((specs.filter (fun c => c ≠ 0)).length) [true, false]).flatten
            ∧ (row.split_by_key).length = 2 * (specs.filter (fun c => c ≠ 0)).length + 1)
        ∧ (∀ filler : String,
          (s.split_empty_by_key filler).map isKeySection
              = false ::
                (List.replicate ((specs.filter (fun c => c ≠ 0)).length) [true, false]).flatten
            ∧ (s.split_empty_by_key filler).length
              = 2 * (specs.filter (fun c => c ≠ 0)).length + 1) := by
  intro datas specs sheets h s hs
  obtain ⟨rows, idx, hnew⟩ := mkSheets_mem h hs
  have hk := sheet_sorted_length hnew
  constructor
  · intro row hrow
    have hsheet := (mem_toRows hrow).1
    constructor
    · rw [SheetRow.split_by_key, split_map_isKey, flatMap_const, hsheet, hk]
    · rw [SheetRow.split_by_key, split_length, hsheet, hk]
  · intro filler
    constructor
    · rw [Sheet.split_empty_by_key, split_map_isKey, flatMap_const, hk]
    · rw [Sheet.split_empty_by_key, split_length, hk]

/-- Witness for C10 at a concrete input: two sheets of different widths
built from specs `[1, -1]` both split into `2·2+1 = 5` sections of
alternating kinds. -/
theorem split_sections_uniform_witness :
    mkSheets [[["a", "b", "c"]], [["d", "e"]]] [1, -1]
        = Except.ok [ { rows := [["a", "b", "c"]], column_count := 3, input_index := 0,
                        key_columns := { original := [some 0, some 2], sorted := [0, 2] } },
                      { rows := [["d", "e"]], column_count := 2, input_index := 1,
                        key_columns := { original := [some 0, some 1], sorted := [0, 1] } } ]
    ∧ ∀ s ∈ [ ( { rows := [["a", "b", "c"]], column_count := 3, input_index := 0,
                  key_columns := { original := [some 0, some 2], sorted := [0, 2] } } : Sheet),
              { rows := [["d", "e"]], column_count := 2, input_index := 1,
                key_columns := { original := [some 0, some 1], sorted := [0, 1] } } ],
        (∀ row ∈ s.toRows,
          (row.split_by_key).map isKeySection
              = false ::
                (List.replicate ((([1, -1] : List Int).filter (fun c => c ≠ 0)).length)
                  [true, false]).flatten
            ∧ (row.split_by_key).length
              = 2 * (([1, -1] : List Int).filter (fun c => c ≠ 0)).length + 1)
        ∧ (∀ filler : String,
          (s.split_empty_by_key filler).map isKeySection
              = false ::
                (List.replicate ((([1, -1] : List Int).filter (fun c => c ≠ 0)).length)
                  [true, false]).flatten
            ∧ (s.split_empty_by_key filler).length
              = 2 * (([1, -1] : List Int).filter (fun c => c ≠ 0)).length + 1) :=
  ⟨by rfl, fun s hs => split_sections_uniform [[["a", "b", "c"]], [["d", "e"]]] [1, -1] _
    (by rfl) s hs⟩

/-! ## Column resolution: detailed analysis -/

theorem int_max?_spec {l : List Int} {m : Int} (h : l.max? = some m) :
    m ∈ l ∧ ∀ b ∈ l, b ≤ m :=
  (@List.max?_eq_some_iff Int m _ _ ⟨@Int.le_antisymm⟩
    (fun a => le_refl a) max_choice (fun _ _ _ => max_le_iff) l).mp h

theorem int_min?_spec {l : List Int} {m : Int} (h : l.min? = some m) :
    m ∈ l ∧ ∀ b ∈ l, m ≤ b :=
  (@List.min?_eq_some_iff Int m _ _ ⟨@Int.le_antisymm⟩
    (fun a => le_refl a) min_choice (fun _ _ _ => le_min_iff) l).mp h

theorem normalize_column_pos {c : Int} {count : Nat} {res : Option Nat}
    (h : Sheet.normalize_column c count = Except.ok res) (hc : 0 < c) :
    ∃ p : Nat, res = some p ∧ (p : Int) = c - 1 ∧ c - 1 < (count : Int) := by
  have hz : ¬ c = 0 := by omega
  simp only [Sheet.normalize_column, if_neg hz, if_pos hc] at h
  by_cases hb : (0 : Int) ≤ c - 1 ∧ c - 1 < (count : Int)
  · rw [if_pos hb] at h
    cases h
    exact ⟨(c - 1).toNat, rfl, by omega, hb.2⟩
  · rw [if_neg hb] at h
    cases h

theorem normalize_column_neg {c : Int} {count : Nat} {res : Option Nat}
    (h : Sheet.normalize_column c count = Except.ok res) (hc : c < 0) :
    ∃ p : Nat, res = some p ∧ (p : Int) = (count : Int) + c ∧ (0 : Int) ≤ (count : Int) + c := by
  have hz : ¬ c = 0 := by omega
  have hpos : ¬ (0 : Int) < c := by omega
  simp only [Sheet.normalize_column, if_neg hz, if_neg hpos] at h
  by_cases hb : (0 : Int) ≤ (count : Int) + c ∧ (count : Int) + c < (count : Int)
  · rw [if_pos hb] at h
    cases h
    exact ⟨((count : Int) + c).toNat, rfl, by omega, hb.1⟩
  · rw [if_neg hb] at h
    cases h

theorem normalize_column_error {c : Int} {count : Nat} {e : SolidifyError}
    (h : Sheet.normalize_column c count = Except.error e) :
    e = SolidifyError.columnOutOfBounds c count := by
  by_cases hz : c = 0
  · simp [Sheet.normalize_column, hz] at h
  · simp only [Sheet.normalize_column, if_neg hz] at h
    by_cases hb : (0 : Int) ≤ (if 0 < c then c - 1 else (count : Int) + c)
        ∧ (if 0 < c then c - 1 else (count : Int) + c) < (count : Int)
    · rw [if_pos hb] at h
      cases h
    · rw [if_neg hb] at h
      cases h
      rfl

theorem convertColumns_pointwise {columns : List Int} {count : Nat}
    {res : List (Option Nat)} (h : convertColumns columns count = Except.ok res) :
    res.length = columns.length ∧ ∀ i, i < columns.length →
      Sheet.normalize_column (columns.getD i 0) count = Except.ok (res.getD i none) := by
  induction columns generalizing res with
  | nil =>
    simp only [convertColumns] at h
    cases h
    exact ⟨rfl, by intro i hi; simp at hi⟩
  | cons c cs ih =>
    simp only [convertColumns] at h
    cases hn : Sheet.normalize_column c count with
    | error e => rw [hn, except_error_bind] at h; cases h
    | ok o =>
      rw [hn, except_ok_bind] at h
      cases hr : convertColumns cs count with
      | error e => rw [hr, except_error_bind] at h; cases h
      | ok os =>
        rw [hr, except_ok_bind] at h
        cases h
        obtain ⟨hlen, hall⟩ := ih hr
        refine ⟨by simp [hlen], ?_⟩
        intro i hi
        cases i with
        | zero => simpa using hn
        | succ j => simpa using hall j (by simpa using hi)

theorem convertColumns_error_shape {columns : List Int} {count : Nat} {e : SolidifyError}
    (h : convertColumns columns count = Except.error e) :
    ∃ c cnt, e = SolidifyError.columnOutOfBounds c cnt := by
  induction columns with
  | nil => simp [convertColumns] at h
  | cons c cs ih =>
    simp only [convertColumns] at h
    cases hn : Sheet.normalize_column c count with
    | error e2 =>
      rw [hn, except_error_bind] at h
      cases h
      exact ⟨c, count, normalize_column_error hn⟩
    | ok o =>
      rw [hn, except_ok_bind] at h
      cases hr : convertColumns cs count with
      | error e2 =>
        rw [hr, except_error_bind] at h
        cases h
        exact ih hr
      | ok os => rw [hr, except_ok_bind] at h; cases h

theorem check_convert_columns_ensure {columns : List Int} {count : Nat}
    {res : List (Option Nat)} (h : Sheet.check_convert_columns columns count = Except.ok res) :
    ∀ l s, (columns.filter (fun value => 0 < value)).max? = some l →
      (columns.filter (fun value => value < 0)).min? = some s →
      l - s ≤ (count : Int) := by
  intro l s hl hs
  simp only [Sheet.check_convert_columns] at h
  cases hc : convertColumns columns count with
  | error e => rw [hc, except_error_bind] at h; cases h
  | ok r =>
    rw [hc, except_ok_bind, hl, hs] at h
    have h2 : (if l - s ≤ (count : Int) then Except.ok r
        else Except.error (SolidifyError.columnOrderingConflict l s)) = Except.ok res := h
    by_cases hle : l - s ≤ (count : Int)
    · exact hle
    · rw [if_neg hle] at h2
      cases h2

theorem check_convert_columns_ordering_error_iff (columns : List Int) (count : Nat) :
    (∃ l s, Sheet.check_convert_columns columns count
        = Except.error (SolidifyError.columnOrderingConflict l s))
      ↔ (∃ res, convertColumns columns count = Except.ok res)
        ∧ ∃ l s, (columns.filter (fun value => 0 < value)).max? = some l
          ∧ (columns.filter (fun value => value < 0)).min? = some s
          ∧ (count : Int) < l - s := by
  constructor
  · rintro ⟨l, s, h⟩
    simp only [Sheet.check_convert_columns] at h
    cases hc : convertColumns columns count with
    | error e =>
      rw [hc, except_error_bind] at h
      cases h
      obtain ⟨c, cnt, he⟩ := convertColumns_error_shape hc
      cases he
    | ok r =>
      rw [hc, except_ok_bind] at h
      cases hp : (columns.filter (fun value => decide (0 < value))).max? with
      | none =>
        rw [hp] at h
        cases hq : (columns.filter (fun value => decide (value < 0))).min? with
        | none =>
          rw [hq] at h
          exact absurd (h : Except.ok r = _) (by simp)
        | some smallest =>
          rw [hq] at h
          exact absurd (h : Except.ok r = _) (by simp)
      | some largest =>
        rw [hp] at h
        cases hq : (columns.filter (fun value => decide (value < 0))).min? with
        | none =>
          rw [hq] at h
          exact absurd (h : Except.ok r = _) (by simp)
        | some smallest =>
          rw [hq] at h
          have h2 : (if largest - smallest ≤ (count : Int) then Except.ok r
              else Except.error (SolidifyError.columnOrderingConflict largest smallest))
              = Except.error (SolidifyError.columnOrderingConflict l s) := h
          by_cases hle : largest - smallest ≤ (count : Int)
          · rw [if_pos hle] at h2; cases h2
          · rw [if_neg hle] at h2
            cases h2
            exact ⟨⟨r, rfl⟩, _, _, rfl, rfl, by omega⟩
  · rintro ⟨⟨res, hc⟩, l, s, hl, hs, hlt⟩
    refine ⟨l, s, ?_⟩
    simp only [Sheet.check_convert_columns]
    rw [hc, except_ok_bind, hl, hs]
    show (if l - s ≤ (count : Int) then Except.ok res
        else Except.error (SolidifyError.columnOrderingConflict l s)) = _
    rw [if_neg (by omega)]

/-- C4 counterexample: for specs `[5, -5]` on a sheet of 2 columns the
claim's condition holds — a positive and a negative spec are present and
`5 - (-5) = 10` exceeds 2 — yet resolution does not fail with a
`columnOrderingConflict`: the out-of-bounds check on the spec `5` fires
first. -/
theorem column_ordering_claim_counterexample :
    (([5, -5] : List Int).filter (fun value => 0 < value)).max? = some 5
    ∧ (([5, -5] : List Int).filter (fun value => value < 0)).min? = some (-5)
    ∧ ((2 : Nat) : Int) < 5 - (-5)
    ∧ Sheet.check_convert_columns [5, -5] 2
        = Except.error (SolidifyError.columnOutOfBounds 5 2)
    ∧ ∀ l s, Sheet.check_convert_columns [5, -5] 2
        ≠ Except.error (SolidifyError.columnOrderingConflict l s) := by
  refine ⟨rfl, rfl, by decide, rfl, ?_⟩
  intro l s h
  rw [show Sheet.check_convert_columns [5, -5] 2
      = Except.error (SolidifyError.columnOutOfBounds 5 2) from rfl] at h
  exact SolidifyError.noConfusion (Except.error.inj h)

/-- C4 (amended): resolution fails with a `columnOrderingConflict` exactly
when every spec resolves in bounds (the per-spec normalization loop
succeeds) and both a positive and a negative spec are present with
(largest positive) − (smallest negative) exceeding the column count; and
whenever resolution succeeds, every offset derived from a positive spec is
strictly below every offset derived from a negative spec. -/
theorem column_ordering_resolution :
    ∀ (columns : List Int) (count : Nat),
      ((∃ l s, Sheet.check_convert_columns columns count
          = Except.error (SolidifyError.columnOrderingConflict l s))
        ↔ (∃ res, convertColumns columns count = Except.ok res)
          ∧ ∃ l s, (columns.filter (fun value => 0 < value)).max? = some l
            ∧ (columns.filter (fun value => value < 0)).min? = some s
            ∧ (count : Int) < l - s)
      ∧ (∀ res, Sheet.check_convert_columns columns count = Except.ok res →
          ∀ i j, i < columns.length → j < columns.length →
            0 < columns.getD i 0 → columns.getD j 0 < 0 →
            ∃ pi nj, res.getD i none = some pi ∧ res.getD j none = some nj ∧ pi < nj) := by
  intro columns count
  refine ⟨check_convert_columns_ordering_error_iff columns count, ?_⟩
  intro res hok i j hi hj hpos hneg
  have hconv := check_convert_columns_ok hok
  obtain ⟨hlen, hpt⟩ := convertColumns_pointwise hconv
  obtain ⟨pi, hpi, hpiv, hpib⟩ := normalize_column_pos (hpt i hi) hpos
  obtain ⟨nj, hnj, hnjv, hnjb⟩ := normalize_column_neg (hpt j hj) hneg
  have hmi : columns.getD i 0 ∈ columns := by
    rw [List.getD_eq_getElem columns 0 hi]
    exact List.getElem_mem hi
  have hmj : columns.getD j 0 ∈ columns := by
    rw [List.getD_eq_getElem columns 0 hj]
    exact List.getElem_mem hj
  have hmfi : columns.getD i 0 ∈ columns.filter (fun value => decide (0 < value)) :=
    List.mem_filter.mpr ⟨hmi, by simpa using hpos⟩
  have hmfj : columns.getD j 0 ∈ columns.filter (fun value => decide (value < 0)) :=
    List.mem_filter.mpr ⟨hmj, by simpa using hneg⟩
  cases hmax : (columns.filter (fun value => decide (0 < value))).max? with
  | none =>
    rw [List.max?_eq_none_iff.mp hmax] at hmfi
    cases hmfi
  | some l =>
    cases hmin : (columns.filter (fun value => decide (value < 0))).min? with
    | none =>
      rw [List.min?_eq_none_iff.mp hmin] at hmfj
      cases hmfj
    | some s =>
      have hle_i := (int_max?_spec hmax).2 _ hmfi
      have hle_j := (int_min?_spec hmin).2 _ hmfj
      have hens := check_convert_columns_ensure hok l s hmax hmin
      exact ⟨pi, nj, hpi, hnj, by omega⟩

/-- Witness for the amended C4 at specs `[1, -1]` on 2 columns: offset 0
(from `1`) is strictly below offset 1 (from `-1`). -/
theorem column_ordering_resolution_witness :
    ∃ pi nj, (([some 0, some 1] : List (Option Nat)).getD 0 none = some pi)
      ∧ (([some 0, some 1] : List (Option Nat)).getD 1 none = some nj) ∧ pi < nj :=
  (column_ordering_resolution [1, -1] 2).2 [some 0, some 1] (by rfl) 0 1
    (by decide) (by decide) (by decide) (by decide)

/-! ## The merge of one output row, section by section -/

/-- The key cell of a section, when it is a key section. -/
def sectionKeyValue : SheetRowSection → Option String
  | SheetRowSection.Key value => some value
  | SheetRowSection.NonKey _ => none

/-- All cells a section carries. -/
def sectionCells : SheetRowSection → List String
  | SheetRowSection.Key value => [value]
  | SheetRowSection.NonKey values => values

theorem foldl_merge_key_seen (split : List (List SheetRowSection × Bool)) (p : Nat) :
    ∀ acc : List String,
      (∀ e ∈ split, isKeySection (e.1.getD p (SheetRowSection.NonKey [])) = true) →
      (split.foldl (mergeSectionStep p) (acc, true)).1 = acc := by
  induction split with
  | nil => intro acc _; rfl
  | cons e rest ih =>
    intro acc h
    have he := h e (by simp)
    cases hsec : e.1.getD p (SheetRowSection.NonKey []) with
    | NonKey values => rw [hsec] at he; cases he
    | Key value =>
      have hstep : mergeSectionStep p (acc, true) e = (acc, true) := by
        unfold mergeSectionStep
        rw [hsec]
        simp
      simp only [List.foldl_cons, hstep]
      exact ih acc (fun e2 h2 => h e2 (by simp [h2]))

theorem foldl_merge_key_unseen (split : List (List SheetRowSection × Bool)) (p : Nat) :
    ∀ acc : List String,
      (∀ e ∈ split, isKeySection (e.1.getD p (SheetRowSection.NonKey [])) = true) →
      (split.foldl (mergeSectionStep p) (acc, false)).1
        = acc ++ ((split.find? (fun e => e.2)).bind
            (fun e => sectionKeyValue (e.1.getD p (SheetRowSection.NonKey [])))).toList := by
  induction split with
  | nil => intro acc _; simp
  | cons e rest ih =>
    intro acc h
    have he := h e (by simp)
    cases hsec : e.1.getD p (SheetRowSection.NonKey []) with
    | NonKey values => rw [hsec] at he; cases he
    | Key value =>
      have hrest : ∀ e2 ∈ rest, isKeySection (e2.1.getD p (SheetRowSection.NonKey [])) = true :=
        fun e2 h2 => h e2 (by simp [h2])
      cases hfill : e.2 with
      | true =>
        have hstep : mergeSectionStep p (acc, false) e = (acc ++ [value], true) := by
          unfold mergeSectionStep
          rw [hsec, hfill]
          simp
        simp only [List.foldl_cons, hstep]
        rw [foldl_merge_key_seen rest p (acc ++ [value]) hrest,
            List.find?_cons_of_pos _ (by simp [hfill])]
        show acc ++ [value]
          = acc ++ (sectionKeyValue (e.1.getD p (SheetRowSection.NonKey []))).toList
        rw [hsec]
        rfl
      | false =>
        have hstep : mergeSectionStep p (acc, false) e = (acc, false) := by
          unfold mergeSectionStep
          rw [hsec, hfill]
          simp
        simp only [List.foldl_cons, hstep]
        rw [ih acc hrest, List.find?_cons_of_neg _ (by simp [hfill])]

theorem foldl_merge_nonkey (split : List (List SheetRowSection × Bool)) (p : Nat) :
    ∀ (acc : List String) (b : Bool),
      (∀ e ∈ split, isKeySection (e.1.getD p (SheetRowSection.NonKey [])) = false) →
      (split.foldl (mergeSectionStep p) (acc, b)).1
        = acc ++ split.flatMap (fun e => sectionCells (e.1.getD p (SheetRowSection.NonKey []))) := by
  induction split with
  | nil => intro acc b _; simp
  | cons e rest ih =>
    intro acc b h
    have he := h e (by simp)
    cases hsec : e.1.getD p (SheetRowSection.NonKey []) with
    | Key value => rw [hsec] at he; cases he
    | NonKey values =>
      have hstep : mergeSectionStep p (acc, b) e = (acc ++ values, b) := by
        unfold mergeSectionStep
        rw [hsec]
      simp only [List.foldl_cons, hstep]
      rw [ih (acc ++ values) b (fun e2 h2 => h e2 (by simp [h2])), List.flatMap_cons, hsec]
      simp [sectionCells]

/-- Example fixture: the engine parameters used in the spec's concrete
test-property examples (filler `-`, no multi-merge, diagnostics off). -/
def exParams : Params :=
  { allow_single_column := false, allow_multi_merge := false, filler := "-",
    similarity_warn_level := 0,
    warn_unmatched := false,
    names := { allow_single_column := "--allow-single-column",
               allow_multi_merge := "--allow-multi-merge" } }

/-- C1: a merged output row walks the aligned section lists in lockstep
(one flag per source marking whether it holds a real row): at a position
where every source has a key section, exactly the first real (non-filler)
source's value is emitted and later sources' key values are suppressed; at
a position where every source has a non-key section, all sources' cells
are emitted in source order; the whole row is the concatenation over
section positions; and on sources `A=[{k:x,v:1}]`, `B=[{k:x,v:2}]` with
key column 1 and filler `-` the output is exactly `[[x,1,2]]`. -/
theorem merge_row_lockstep_semantics :
    (∀ (data : List (Option SheetRow × Sheet)) (params : Params),
      (mergeSplit data params).map (fun e => e.2) = data.map (fun p => p.1.isSome))
    ∧ (∀ (split : List (List SheetRowSection × Bool)) (p : Nat),
        (∀ e ∈ split, isKeySection (e.1.getD p (SheetRowSection.NonKey [])) = true) →
        mergeSection split p
          = ((split.find? (fun e => e.2)).bind
              (fun e => sectionKeyValue (e.1.getD p (SheetRowSection.NonKey [])))).toList)
    ∧ (∀ (split : List (List SheetRowSection × Bool)) (p : Nat),
        (∀ e ∈ split, isKeySection (e.1.getD p (SheetRowSection.NonKey [])) = false) →
        mergeSection split p
          = split.flatMap (fun e => sectionCells (e.1.getD p (SheetRowSection.NonKey []))))
    ∧ (∀ (data : List (Option SheetRow × Sheet)) (params : Params) first rest,
        mergeSplit data params = first :: rest →
        merge_row data params
          = (List.range first.1.length).flatMap (mergeSection (first :: rest)))
    ∧ solidifyData [[["x", "1"]], [["x", "2"]]] [1] exParams
        = Except.ok [["x", "1", "2"]] := by
  refine ⟨?_, ?_, ?_, ?_, by rfl⟩
  · intro data params
    simp only [mergeSplit, List.map_map]
    refine List.map_congr_left ?_
    intro p _
    cases h : p.1 <;> simp [h]
  · intro split p h
    exact foldl_merge_key_unseen split p [] h
  · intro split p h
    exact foldl_merge_nonkey split p [] false h
  · intro data params first rest hsplit
    simp only [merge_row, hsplit, List.head?_cons]

/-- Witness for C1's conditional parts at a concrete split: two sources,
both with a key section holding `x` at position 0, the first unfilled and
the second filled — the merged cells for the position are exactly the
filled source's `[x]`. -/
theorem merge_row_lockstep_semantics_witness :
    mergeSection [([SheetRowSection.Key "a"], false), ([SheetRowSection.Key "x"], true)] 0
      = ["x"] := by
  have h := merge_row_lockstep_semantics.2.1
    [([SheetRowSection.Key "a"], false), ([SheetRowSection.Key "x"], true)] 0
    (by intro e he; fin_cases he <;> rfl)
  simpa using h

/-! ## Ambiguity detection -/

theorem mergeAllowed_false_iff (row_sets : List (List SheetRow)) (params : Params) :
    mergeAllowed row_sets params = false
      ↔ params.allow_multi_merge = false
        ∧ (∃ set ∈ row_sets, 2 ≤ set.length)
        ∧ 2 ≤ (row_sets.filter (fun set => 0 < set.length)).length := by
  unfold mergeAllowed
  constructor
  · intro hfalse
    rw [Bool.or_eq_false_iff, Bool.or_eq_false_iff] at hfalse
    obtain ⟨⟨ha, hb⟩, hc⟩ := hfalse
    rw [List.all_eq_false] at hb
    obtain ⟨set, hset, hlen⟩ := hb
    exact ⟨ha, ⟨set, hset, by simpa using hlen⟩, by simpa using hc⟩
  · rintro ⟨ha, ⟨set, hset, hlen⟩, hc⟩
    rw [Bool.or_eq_false_iff, Bool.or_eq_false_iff]
    refine ⟨⟨ha, ?_⟩, ?_⟩
    · rw [List.all_eq_false]
      exact ⟨set, hset, by simpa using hlen⟩
    · simpa using hc

theorem consumeKey_not_error_of_allowed {sheets : List Sheet} {params : Params}
    {s : MergeState} {k : Key} {row_sets : List (List SheetRow)}
    (hlk : lookupKey s.byKey k = some row_sets)
    (hma : mergeAllowed row_sets params = true) :
    ∃ s', consumeKey sheets params (Except.ok s) k = Except.ok s' := by
  simp only [consumeKey, hlk, hma, if_true]
  by_cases hsim : 0 < params.similarity_warn_level
  · rw [if_pos hsim]
    exact ⟨_, rfl⟩
  · rw [if_neg hsim]
    exact ⟨_, rfl⟩

/-- C2: with a group's per-source row lists in hand, consumption fails
with `ambiguousMerge` naming the group's key exactly when multi-merge is
off, some source contributes two or more rows, and at least two sources
contribute rows; a permitted multi-merge produces max-length rows paired
positionally by index; and the spec's concrete example behaves exactly as
stated in both modes. -/
theorem ambiguous_merge_detection :
    (∀ (sheets : List Sheet) (params : Params) (s : MergeState) (k : Key)
        (row_sets : List (List SheetRow)),
      lookupKey s.byKey k = some row_sets →
      (consumeKey sheets params (Except.ok s) k
          = Except.error (SolidifyError.ambiguousMerge k)
        ↔ params.allow_multi_merge = false
          ∧ (∃ set ∈ row_sets, 2 ≤ set.length)
          ∧ 2 ≤ (row_sets.filter (fun set => 0 < set.length)).length))
    ∧ (∀ (data : List (List SheetRow × Sheet)) (params : Params),
        merge data params
          = (List.range (((data.map (fun p => p.1.length)).max?).getD 0)).map
              (fun index => merge_row (data.map (fun p => (p.1[index]?, p.2))) params))
    ∧ solidifyData [[["x", "1"], ["x", "2"]], [["x", "3"], ["x", "4"]]] [1] exParams
        = Except.error (SolidifyError.ambiguousMerge [KeyItem.Data "x"])
    ∧ solidifyData [[["x", "1"], ["x", "2"]], [["x", "3"], ["x", "4"]]] [1]
        { exParams with allow_multi_merge := true }
        = Except.ok [["x", "1", "3"], ["x", "2", "4"]] := by
  refine ⟨?_, fun data params => rfl, by rfl, by rfl⟩
  intro sheets params s k row_sets hlk
  cases hma : mergeAllowed row_sets params
  · constructor
    · intro _
      exact (mergeAllowed_false_iff row_sets params).mp hma
    · intro _
      simp only [consumeKey, hlk, hma]
      rfl
  · constructor
    · intro herr
      obtain ⟨s', hok⟩ := consumeKey_not_error_of_allowed hlk hma
      rw [hok] at herr
      cases herr
    · rintro hrhs
      have := (mergeAllowed_false_iff row_sets params).mpr hrhs
      rw [hma] at this
      cases this

/-- Witness for C2's conditional part: a pending group with rows `[2, 1]`
across two sources and multi-merge off is rejected with the group's key. -/
theorem ambiguous_merge_detection_witness :
    consumeKey [] exParams
        (Except.ok
          (MergeState.mk
            [([KeyItem.Data "x"],
              [[SheetRow.mk default 0, SheetRow.mk default 1], [SheetRow.mk default 0]])]
            [] [] [] []))
        [KeyItem.Data "x"]
      = Except.error (SolidifyError.ambiguousMerge [KeyItem.Data "x"]) :=
  (ambiguous_merge_detection.1 [] exParams _ [KeyItem.Data "x"] _ (by rfl)).mpr
    ⟨rfl, ⟨[SheetRow.mk default 0, SheetRow.mk default 1], by simp, by simp⟩, by simp⟩

/-! ## Filling for sources without a matching row -/

/-- C6 counterexample: with a literally empty second source, consolidation
does not succeed — the key spec `1` is out of bounds for that source's 0
columns — so no output row is produced at all. -/
theorem filler_empty_source_counterexample :
    solidifyData [[["x", "1"]], ([] : List (List String))] [1] exParams
      = Except.error (SolidifyError.columnOutOfBounds 1 0) := by rfl

/-- C6 (amended): for sources `A=[{k:x,v:1}]` and `B` holding no row with
key `x` (here `B=[{k:y,v:2}]`), consolidation succeeds and the output row
for key `x` is `[x,1,-]`, the absent source's cells coming from a
synthetic all-filler row of its column layout. -/
theorem filler_missing_row :
    solidifyData [[["x", "1"]], [["y", "2"]]] [1] exParams
      = Except.ok [["x", "1", "-"], ["y", "-", "2"]]
    ∧ (["x", "1", "-"] : List String) ∈ [["x", "1", "-"], ["y", "-", "2"]] := by
  exact ⟨by rfl, by simp⟩

/-! ## The edit distance of a string to itself is zero -/

/-- Reference recursion equivalent to the fold inside `nextRow`: one new
cell per remaining character of `b`, threading the cell to the left. -/
def nextRowRec (x : Char) : List Char → List Nat → Nat → List Nat
  | [], _, _ => []
  | y :: ys, prev, left =>
    (fun v => v :: nextRowRec x ys prev.tail v)
      (min ((prev.tail.headD 0) + 1)
        (min (left + 1) ((prev.headD 0) + (if x = y then 0 else 1))))

theorem nextRow_fold_spec (x : Char) :
    ∀ (b : List Char) (prev : List Nat) (acc : List Nat) (last : Nat),
      prev.length = b.length + 1 →
      ((b.zip (prev.zip prev.tail)).foldl
        (fun acc2 p =>
          let v := min (p.2.2 + 1) (min (acc2.2 + 1) (p.2.1 + (if x = p.1 then 0 else 1)))
          (acc2.1 ++ [v], v))
        (acc, last)).1
      = acc ++ nextRowRec x b prev last := by
  intro b
  induction b with
  | nil => intro prev acc last _; simp [nextRowRec]
  | cons y ys ih =>
    intro prev acc last hlen
    cases prev with
    | nil => simp at hlen
    | cons d prev1 =>
      cases prev1 with
      | nil =>
        simp only [List.length_cons, List.length_nil, List.length_cons] at hlen
        omega
      | cons u rest =>
        have hlen2 : (u :: rest).length = ys.length + 1 := by
          simp only [List.length_cons] at hlen ⊢
          omega
        have hzip : ((y :: ys).zip ((d :: u :: rest).zip (d :: u :: rest).tail))
            = (y, (d, u)) :: (ys.zip ((u :: rest).zip (u :: rest).tail)) := rfl
        rw [hzip, List.foldl_cons]
        show ((ys.zip ((u :: rest).zip (u :: rest).tail)).foldl
            (fun acc2 p =>
              let v := min (p.2.2 + 1) (min (acc2.2 + 1) (p.2.1 + (if x = p.1 then 0 else 1)))
              (acc2.1 ++ [v], v))
            (acc ++ [min (u + 1) (min (last + 1) (d + (if x = y then 0 else 1)))],
             min (u + 1) (min (last + 1) (d + (if x = y then 0 else 1))))).1
          = acc ++ nextRowRec x (y :: ys) (d :: u :: rest) last
        rw [ih (u :: rest) _ _ hlen2]
        have hrec : nextRowRec x (y :: ys) (d :: u :: rest) last
            = min (u + 1) (min (last + 1) (d + (if x = y then 0 else 1)))
              :: nextRowRec x ys (u :: rest)
                (min (u + 1) (min (last + 1) (d + (if x = y then 0 else 1)))) := rfl
        rw [hrec]
        simp

theorem nextRow_eq_rec (x : Char) (b : List Char) (prev : List Nat)
    (h : prev.length = b.length + 1) :
    nextRow x b prev = (prev.headD 0 + 1) :: nextRowRec x b prev (prev.headD 0 + 1) := by
  unfold nextRow
  rw [nextRow_fold_spec x b prev [prev.headD 0 + 1] (prev.headD 0 + 1) h]
  rfl

theorem nextRowRec_self (l : List Char) (k : Nat) :
    ∀ m j, j + m = l.length →
      nextRowRec (l.getD k ' ') (l.drop j)
          (Nat.dist j k :: (List.range' (j + 1) (l.length - j)).map (fun t => Nat.dist t k))
          (Nat.dist j (k + 1))
        = (List.range' (j + 1) (l.length - j)).map (fun t => Nat.dist t (k + 1)) := by
  intro m
  induction m with
  | zero =>
    intro j hj
    have hj2 : j = l.length := by omega
    subst hj2
    simp [nextRowRec]
  | succ m ih =>
    intro j hj
    have hjlt : j < l.length := by omega
    have hdrop : l.drop j = l.getD j ' ' :: l.drop (j + 1) := by
      rw [List.getD_eq_getElem l ' ' hjlt]
      exact (List.getElem_cons_drop l j hjlt).symm
    have hr3 : l.length - j = (l.length - (j + 1)) + 1 := by omega
    have hsplit : (List.range' (j + 1) (l.length - j)).map (fun t => Nat.dist t k)
        = Nat.dist (j + 1) k
          :: (List.range' (j + 2) (l.length - (j + 1))).map (fun t => Nat.dist t k) := by
      rw [hr3, List.range'_succ]
      rfl
    rw [hdrop, hsplit]
    have hstep : nextRowRec (l.getD k ' ') (l.getD j ' ' :: l.drop (j + 1))
        (Nat.dist j k
          :: Nat.dist (j + 1) k
          :: (List.range' (j + 2) (l.length - (j + 1))).map (fun t => Nat.dist t k))
        (Nat.dist j (k + 1))
        = (fun v => v :: nextRowRec (l.getD k ' ') (l.drop (j + 1))
            (Nat.dist (j + 1) k
              :: (List.range' (j + 2) (l.length - (j + 1))).map (fun t => Nat.dist t k)) v)
          (min (Nat.dist (j + 1) k + 1)
            (min (Nat.dist j (k + 1) + 1)
              (Nat.dist j k + (if l.getD k ' ' = l.getD j ' ' then 0 else 1)))) := rfl
    rw [hstep]
    have harith :
        min (Nat.dist (j + 1) k + 1)
          (min (Nat.dist j (k + 1) + 1)
            (Nat.dist j k + (if l.getD k ' ' = l.getD j ' ' then 0 else 1)))
        = Nat.dist (j + 1) (k + 1) := by
      by_cases hjk : j = k
      · subst hjk
        rw [if_pos rfl]
        simp only [Nat.dist]
        omega
      · by_cases hc : l.getD k ' ' = l.getD j ' '
        · rw [if_pos hc]
          simp only [Nat.dist]
          omega
        · rw [if_neg hc]
          simp only [Nat.dist]
          omega
    rw [harith]
    have hih := ih (j + 1) (by omega)
    have hihcast : Nat.dist (j + 1) k
          :: (List.range' (j + 1 + 1) (l.length - (j + 1))).map (fun t => Nat.dist t k)
        = Nat.dist (j + 1) k
          :: (List.range' (j + 2) (l.length - (j + 1))).map (fun t => Nat.dist t k) := rfl
    rw [hihcast] at hih
    show Nat.dist (j + 1) (k + 1)
        :: nextRowRec (l.getD k ' ') (l.drop (j + 1))
          (Nat.dist (j + 1) k
            :: (List.range' (j + 2) (l.length - (j + 1))).map (fun t => Nat.dist t k))
          (Nat.dist (j + 1) (k + 1))
      = (List.range' (j + 1) (l.length - j)).map (fun t => Nat.dist t (k + 1))
    rw [hih, hr3, List.range'_succ]
    rfl

theorem selfRow_step (l : List Char) (k : Nat) (hk : k < l.length) :
    nextRow (l.getD k ' ') l ((List.range' 0 (l.length + 1)).map (fun t => Nat.dist t k))
      = (List.range' 0 (l.length + 1)).map (fun t => Nat.dist t (k + 1)) := by
  have hlen : ((List.range' 0 (l.length + 1)).map (fun t => Nat.dist t k)).length
      = l.length + 1 := by simp
  rw [nextRow_eq_rec _ _ _ hlen]
  have hsplitk : (List.range' 0 (l.length + 1)).map (fun t => Nat.dist t k)
      = Nat.dist 0 k :: (List.range' 1 l.length).map (fun t => Nat.dist t k) := by
    rw [List.range'_succ]
    rfl
  have hheadD : ((List.range' 0 (l.length + 1)).map (fun t => Nat.dist t k)).headD 0
      = Nat.dist 0 k := by
    rw [hsplitk]
    rfl
  have hd0 : Nat.dist 0 k + 1 = Nat.dist 0 (k + 1) := by
    simp only [Nat.dist]
    omega
  have hih := nextRowRec_self l k l.length 0 (by omega)
  rw [List.drop_zero, Nat.sub_zero] at hih
  have hcons : Nat.dist 0 k :: (List.range' (0 + 1) l.length).map (fun t => Nat.dist t k)
      = (List.range' 0 (l.length + 1)).map (fun t => Nat.dist t k) := by
    rw [hsplitk]
  rw [hcons] at hih
  rw [hheadD, hd0, hih]
  rw [show (List.range' 0 (l.length + 1)).map (fun t => Nat.dist t (k + 1))
      = Nat.dist 0 (k + 1) :: (List.range' 1 l.length).map (fun t => Nat.dist t (k + 1)) from by
    rw [List.range'_succ]
    rfl]

theorem editDistance_self (l : List Char) : editDistance l l = 0 := by
  have hfold : ∀ (m : List Char) (k : Nat), k + m.length = l.length → m = l.drop k →
      m.foldl (fun prev x => nextRow x l prev)
          ((List.range' 0 (l.length + 1)).map (fun t => Nat.dist t k))
        = (List.range' 0 (l.length + 1)).map (fun t => Nat.dist t l.length) := by
    intro m
    induction m with
    | nil =>
      intro k hk _
      simp only [List.length_nil, Nat.add_zero] at hk
      subst hk
      rfl
    | cons x rest ih =>
      intro k hk hdrop
      have hklt : k < l.length := by
        simp only [List.length_cons] at hk
        omega
      have hx : x = l.getD k ' ' := by
        have h1 := List.getElem_cons_drop l k hklt
        rw [← hdrop] at h1
        injection h1 with h1a h1b
        rw [List.getD_eq_getElem l ' ' hklt]
        exact h1a.symm
      have hrest : rest = l.drop (k + 1) := by
        have h1 := List.getElem_cons_drop l k hklt
        rw [← hdrop] at h1
        injection h1 with h1a h1b
        exact h1b.symm
      simp only [List.foldl_cons]
      rw [hx, selfRow_step l k hklt]
      exact ih (k + 1) (by simp only [List.length_cons] at hk; omega) hrest
  unfold editDistance
  have hinit : List.range (l.length + 1)
      = (List.range' 0 (l.length + 1)).map (fun t => Nat.dist t 0) := by
    rw [List.range_eq_range']
    conv_lhs => rw [← List.map_id (List.range' 0 (l.length + 1))]
    refine List.map_congr_left ?_
    intro t _
    simp [Nat.dist]
  rw [hinit, hfold l 0 (by simp) (by simp)]
  rw [List.range'_1_concat, List.map_append]
  simp [Nat.dist]

/-- `compare_strings` of equal strings is `0`. -/
theorem compare_strings_self (s : String) : compare_strings s s = 0 :=
  editDistance_self s.data

/-! ## Similarity diagnostics -/

/-- The `Data` content of a key item (`none` for a synthetic `Id`): two
keys with the same image under this map differ only at `Id` positions. -/
def keyItemData : KeyItem → Option String
  | KeyItem.Data s => some s
  | KeyItem.Id _ => none

/-- The two sheets built from single-row single-column inputs `[[x]]` and
`[[x]]` under specs `[1, 0]` (column 1 plus the synthetic unique marker). -/
def exIdSheets : List Sheet :=
  [ { rows := [["x"]], column_count := 1, input_index := 0,
      key_columns := { original := [some 0, none], sorted := [0] } },
    { rows := [["x"]], column_count := 1, input_index := 1,
      key_columns := { original := [some 0, none], sorted := [0] } } ]

/-- C5 counterexample: two keys that differ only at `Id` positions (their
`Data` contents agree positionally) ARE reported as similar — the `Id`
pairing contributes `0`, the aggregate distance is `0 ≤ 1` — contradicting
"never reported as similar". -/
theorem similarity_id_reported_counterexample :
    ([KeyItem.Data "x", KeyItem.Id (RecordId.mk 0 0)] : Key).map keyItemData
        = ([KeyItem.Data "x", KeyItem.Id (RecordId.mk 1 0)] : Key).map keyItemData
    ∧ ([KeyItem.Data "x", KeyItem.Id (RecordId.mk 0 0)] : Key)
        ≠ [KeyItem.Data "x", KeyItem.Id (RecordId.mk 1 0)]
    ∧ mkSheets [[["x"]], [["x"]]] [1, 0] = Except.ok exIdSheets
    ∧ (match_and_merge exIdSheets { exParams with similarity_warn_level := 1 }).map
        (fun st => st.simWarnings)
      = Except.ok [([KeyItem.Data "x", KeyItem.Id (RecordId.mk 0 0)],
                    [KeyItem.Data "x", KeyItem.Id (RecordId.mk 1 0)], 0)] :=
  ⟨by rfl, by decide, by rfl, by rfl⟩

/-- Membership in the batch of similarity warnings one consumed group
emits over the pending map. -/
theorem simWarn_mem (level : Nat) (k : Key)
    (pending : List (Key × List (List SheetRow))) (k2 : Key) (d : Nat) :
    ((k, k2, d) ∈ (pending.map (fun e => (k, e.1))).filterMap (fun p =>
        let distance := compare_keys p.1 p.2
        if distance ≤ level then some (p.1, p.2, distance) else none)
      ↔ (∃ g, (k2, g) ∈ pending) ∧ d = compare_keys k k2 ∧ d ≤ level) := by
  rw [List.mem_filterMap]
  constructor
  · rintro ⟨p, hp, hsome⟩
    rw [List.mem_map] at hp
    obtain ⟨e, he, hpe⟩ := hp
    subst hpe
    by_cases hle : compare_keys k e.1 ≤ level
    · rw [if_pos hle] at hsome
      injection hsome with h1
      injection h1 with h1a h1b
      injection h1b with h1b1 h1b2
      subst h1b1
      subst h1b2
      exact ⟨⟨e.2, by simpa using he⟩, rfl, hle⟩
    · rw [if_neg hle] at hsome
      cases hsome
  · rintro ⟨⟨g, hg⟩, hd, hle⟩
    subst hd
    refine ⟨(k, k2), List.mem_map.mpr ⟨(k2, g), hg, rfl⟩, ?_⟩
    rw [if_pos hle]

theorem compare_keys_eq_zero_of_data_eq :
    ∀ a b : Key, a.map keyItemData = b.map keyItemData → compare_keys a b = 0 := by
  intro a
  induction a with
  | nil => intro b _; cases b <;> rfl
  | cons x xs ih =>
    intro b hmap
    cases b with
    | nil => cases hmap
    | cons y ys =>
      simp only [List.map_cons, List.cons.injEq] at hmap
      have hx : compare_key_items x y = 0 := by
        cases x with
        | Id r => cases y <;> rfl
        | Data s =>
          cases y with
          | Id r => rfl
          | Data t =>
            simp only [keyItemData, Option.some.injEq] at hmap
            rw [hmap.1]
            exact compare_strings_self t
      have hrest := ih ys hmap.2
      simp only [compare_keys, List.zip_cons_cons, List.map_cons, List.sum_cons] at hrest ⊢
      omega

/-- C5 (amended): the aggregate score of two keys is the sum over zipped
key positions of the per-item comparison; any pairing involving an `Id`
item contributes `0`; a pair is reported exactly when the aggregate
distance is at most the configured level; consequently two keys that
differ only at `Id` positions have aggregate score `0` and, whenever a
positive threshold is configured, are always reported as similar. -/
theorem similarity_scoring :
    (∀ a b : Key, compare_keys a b
        = ((a.zip b).map (fun p => compare_key_items p.1 p.2)).sum)
    ∧ (∀ (x : KeyItem) (r : RecordId), compare_key_items x (KeyItem.Id r) = 0)
    ∧ (∀ (x : KeyItem) (r : RecordId), compare_key_items (KeyItem.Id r) x = 0)
    ∧ (∀ s : String, compare_strings s s = 0)
    ∧ (∀ a b : Key, a.map keyItemData = b.map keyItemData → compare_keys a b = 0)
    ∧ (∀ (sheets : List Sheet) (params : Params) (s s' : MergeState) (k : Key)
          (row_sets : List (List SheetRow)),
        lookupKey s.byKey k = some row_sets →
        consumeKey sheets params (Except.ok s) k = Except.ok s' →
        0 < params.similarity_warn_level →
        ∀ (k2 : Key) (d : Nat),
          ((k, k2, d) ∈ s'.simWarnings
            ↔ (k, k2, d) ∈ s.simWarnings
              ∨ ((∃ g, (k2, g) ∈ removeKey s.byKey k)
                 ∧ d = compare_keys k k2 ∧ d ≤ params.similarity_warn_level))) := by
  refine ⟨fun a b => rfl, ?_, ?_, compare_strings_self,
    compare_keys_eq_zero_of_data_eq, ?_⟩
  · intro x r; cases x <;> rfl
  · intro x r; rfl
  · intro sheets params s s' k row_sets hlk hok hlev k2 d
    simp only [consumeKey, hlk] at hok
    cases hma : mergeAllowed row_sets params with
    | false =>
      rw [hma] at hok
      exact absurd hok (by simp)
    | true =>
      rw [hma, if_pos (rfl : (true = true)), if_pos hlev] at hok
      injection hok with hok
      subst hok
      simp only [List.mem_append]
      rw [simWarn_mem params.similarity_warn_level k (removeKey s.byKey k) k2 d]

/-- Witness for the conditional parts of amended C5: consuming the first
group of the two-`Id`-key run reports the pending key at distance `0`. -/
theorem similarity_scoring_witness :
    (([KeyItem.Data "x", KeyItem.Id (RecordId.mk 0 0)],
      [KeyItem.Data "x", KeyItem.Id (RecordId.mk 1 0)], (0 : Nat))
        ∈ ([] : List (Key × Key × Nat))
      ∨ ((∃ g, ([KeyItem.Data "x", KeyItem.Id (RecordId.mk 1 0)], g)
            ∈ removeKey (initState exIdSheets).byKey
                [KeyItem.Data "x", KeyItem.Id (RecordId.mk 0 0)])
         ∧ (0 : Nat) = compare_keys [KeyItem.Data "x", KeyItem.Id (RecordId.mk 0 0)]
              [KeyItem.Data "x", KeyItem.Id (RecordId.mk 1 0)]
         ∧ (0 : Nat) ≤ 1))
    ∧ compare_keys [KeyItem.Data "x", KeyItem.Id (RecordId.mk 0 0)]
        [KeyItem.Data "x", KeyItem.Id (RecordId.mk 1 0)] = 0 := by
  constructor
  · refine ((similarity_scoring.2.2.2.2.2 exIdSheets
      { exParams with similarity_warn_level := 1 } (initState exIdSheets) _
      [KeyItem.Data "x", KeyItem.Id (RecordId.mk 0 0)] _ (by rfl) (by rfl)
      (by decide) [KeyItem.Data "x", KeyItem.Id (RecordId.mk 1 0)] 0).mp ?_)
    show ([KeyItem.Data "x", KeyItem.Id (RecordId.mk 0 0)],
      [KeyItem.Data "x", KeyItem.Id (RecordId.mk 1 0)], (0 : Nat)) ∈
        [([KeyItem.Data "x", KeyItem.Id (RecordId.mk 0 0)],
          [KeyItem.Data "x", KeyItem.Id (RecordId.mk 1 0)], (0 : Nat))]
    exact List.mem_singleton.mpr rfl
  · exact similarity_scoring.2.2.2.2.1
      [KeyItem.Data "x", KeyItem.Id (RecordId.mk 0 0)]
      [KeyItem.Data "x", KeyItem.Id (RecordId.mk 1 0)] (by rfl)

/-! ## Characterizing the grouping map -/

/-- The keys of an association list, in entry order. -/
def domKeys {α : Type} (m : List (Key × α)) : List Key := m.map (fun e => e.1)

/-- The group a key accumulates over a row scan: per source (in source
order), the rows of that source carrying the key, in scan order. -/
def groupOfList (rows : List (SheetRow × Nat)) (n : Nat) (k : Key) : List (List SheetRow) :=
  (List.range n).map (fun i =>
    ((rows.filter (fun p => decide (p.2 = i ∧ p.1.key = k))).map (fun p => p.1)))

theorem lookupKey_none_iff {α : Type} (m : List (Key × α)) (k : Key) :
    lookupKey m k = none ↔ k ∉ domKeys m := by
  induction m with
  | nil => simp [lookupKey, domKeys]
  | cons e rest ih =>
    by_cases he : e.1 = k
    · simp [lookupKey, he, domKeys]
    · simp [lookupKey, he, domKeys, Ne.symm he]
      simpa [domKeys] using ih

theorem lookupKey_mem_of_some {α : Type} {m : List (Key × α)} {k : Key} {v : α}
    (h : lookupKey m k = some v) : k ∈ domKeys m := by
  by_contra hmem
  rw [← lookupKey_none_iff] at hmem
  rw [h] at hmem
  cases hmem

theorem domKeys_insertByKey (m : List (Key × List (List SheetRow))) (k : Key)
    (i n : Nat) (r : SheetRow) :
    domKeys (insertByKey m k i n r)
      = if k ∈ domKeys m then domKeys m else domKeys m ++ [k] := by
  induction m with
  | nil => simp [insertByKey, domKeys]
  | cons e rest ih =>
    by_cases he : e.1 = k
    · simp [insertByKey, he, domKeys]
    · simp only [insertByKey, if_neg he, domKeys, List.map_cons] at ih ⊢
      rw [ih]
      by_cases hmem : k ∈ rest.map (fun e => e.1)
      · simp [hmem, Ne.symm he]
      · simp [hmem, Ne.symm he]

theorem nodup_domKeys_insertByKey {m : List (Key × List (List SheetRow))} {k : Key}
    {i n : Nat} {r : SheetRow} (h : (domKeys m).Nodup) :
    (domKeys (insertByKey m k i n r)).Nodup := by
  rw [domKeys_insertByKey]
  by_cases hmem : k ∈ domKeys m
  · rwa [if_pos hmem]
  · rw [if_neg hmem]
    simpa [List.nodup_append] using ⟨h, hmem⟩

theorem lookupKey_insertByKey_self (m : List (Key × List (List SheetRow))) (k : Key)
    (i n : Nat) (r : SheetRow) :
    lookupKey (insertByKey m k i n r) k
      = some (pushRow ((lookupKey m k).getD (emptyGroup n)) i r) := by
  induction m with
  | nil => simp [insertByKey, lookupKey]
  | cons e rest ih =>
    by_cases he : e.1 = k
    · simp [insertByKey, he, lookupKey]
    · simp [insertByKey, he, lookupKey, ih]

theorem lookupKey_insertByKey_other (m : List (Key × List (List SheetRow))) {k k2 : Key}
    (i n : Nat) (r : SheetRow) (hne : k2 ≠ k) :
    lookupKey (insertByKey m k i n r) k2 = lookupKey m k2 := by
  induction m with
  | nil => simp [insertByKey, lookupKey, Ne.symm hne]
  | cons e rest ih =>
    by_cases he : e.1 = k
    · subst he
      simp [insertByKey, lookupKey, Ne.symm hne]
    · by_cases he2 : e.1 = k2
      · simp [insertByKey, he, lookupKey, he2, hne]
      · simp [insertByKey, he, lookupKey, he2, ih]

theorem range_map_set {α : Type} (n i : Nat) (f : Nat → α) (v : α) (hi : i < n) :
    ((List.range n).map f).set i v
      = (List.range n).map (fun j => if j = i then v else f j) := by
  refine List.ext_getElem (by simp) ?_
  intro j hj1 hj2
  have hjn : j < n := by simpa using hj2
  rw [List.getElem_set]
  by_cases hji : i = j
  · subst hji
    simp
  · rw [if_neg hji]
    simp [Ne.symm hji]

theorem groupOfList_nil (n : Nat) (k : Key) : groupOfList [] n k = emptyGroup n := by
  simp [groupOfList, emptyGroup, List.map_const']

theorem groupOfList_append_other (rows : List (SheetRow × Nat)) (n : Nat) {k : Key}
    (r : SheetRow) (i : Nat) (hne : r.key ≠ k) :
    groupOfList (rows ++ [(r, i)]) n k = groupOfList rows n k := by
  unfold groupOfList
  refine List.map_congr_left ?_
  intro j _
  rw [List.filter_append]
  have : List.filter (fun p => decide (p.2 = j ∧ p.1.key = k)) [(r, i)] = [] := by
    simp [hne]
  rw [this, List.append_nil]

theorem pushRow_groupOfList (rows : List (SheetRow × Nat)) (n : Nat) {k : Key}
    (r : SheetRow) (i : Nat) (hk : r.key = k) (hi : i < n) :
    pushRow (groupOfList rows n k) i r = groupOfList (rows ++ [(r, i)]) n k := by
  unfold pushRow groupOfList
  have hgetD : (((List.range n).map (fun j =>
      ((rows.filter (fun p => decide (p.2 = j ∧ p.1.key = k))).map (fun p => p.1)))).getD i [])
      = (rows.filter (fun p => decide (p.2 = i ∧ p.1.key = k))).map (fun p => p.1) := by
    rw [List.getD_eq_getElem _ _ (by simpa using hi)]
    simp
  rw [hgetD, range_map_set _ i _ _ hi]
  refine List.map_congr_left ?_
  intro j _
  by_cases hji : j = i
  · subst hji
    rw [if_pos rfl, List.filter_append]
    have : List.filter (fun p => decide (p.2 = j ∧ p.1.key = k)) [(r, j)] = [(r, j)] := by
      simp [hk]
    rw [this, List.map_append]
    rfl
  · rw [if_neg hji, List.filter_append]
    have : List.filter (fun p => decide (p.2 = j ∧ p.1.key = k)) [(r, i)] = [] := by
      simp
      intro h
      exact absurd h.symm hji
    rw [this, List.append_nil]

theorem groupOfList_not_mem (rows : List (SheetRow × Nat)) (n : Nat) {k : Key}
    (h : k ∉ rows.map (fun p => p.1.key)) :
    groupOfList rows n k = emptyGroup n := by
  unfold groupOfList
  have : ∀ j, rows.filter (fun p => decide (p.2 = j ∧ p.1.key = k)) = [] := by
    intro j
    rw [List.filter_eq_nil_iff]
    intro p hp hdec
    rw [decide_eq_true_eq] at hdec
    exact h (List.mem_map.mpr ⟨p, hp, hdec.2⟩)
  simp only [this, List.map_nil]
  simp [emptyGroup, List.map_const']

theorem buildFold_char (n : Nat) :
    ∀ (rem processed : List (SheetRow × Nat)) (m : List (Key × List (List SheetRow))),
      (∀ p ∈ rem, p.2 < n) →
      (domKeys m).Nodup →
      (∀ k, lookupKey m k
        = if k ∈ processed.map (fun p => p.1.key) then some (groupOfList processed n k)
          else none) →
      (domKeys (rem.foldl (fun m2 p => insertByKey m2 p.1.key p.2 n p.1) m)).Nodup
      ∧ ∀ k, lookupKey (rem.foldl (fun m2 p => insertByKey m2 p.1.key p.2 n p.1) m) k
          = if k ∈ (processed ++ rem).map (fun p => p.1.key) then
              some (groupOfList (processed ++ rem) n k)
            else none := by
  intro rem
  induction rem with
  | nil =>
    intro processed m _ hnd hlk
    refine ⟨hnd, ?_⟩
    rw [List.append_nil]
    exact hlk
  | cons p rest ih =>
    intro processed m hlt hnd hlk
    simp only [List.foldl_cons]
    have hp : p.2 < n := hlt p (by simp)
    have hstep : ∀ k, lookupKey (insertByKey m p.1.key p.2 n p.1) k
        = if k ∈ (processed ++ [p]).map (fun q => q.1.key) then
            some (groupOfList (processed ++ [p]) n k)
          else none := by
      intro k
      by_cases hk : k = p.1.key
      · subst hk
        rw [lookupKey_insertByKey_self]
        have hgetD : (lookupKey m p.1.key).getD (emptyGroup n)
            = groupOfList processed n p.1.key := by
          rw [hlk p.1.key]
          by_cases hmem : p.1.key ∈ processed.map (fun q => q.1.key)
          · rw [if_pos hmem]
            rfl
          · rw [if_neg hmem]
            exact (groupOfList_not_mem processed n hmem).symm
        rw [hgetD, pushRow_groupOfList processed n p.1 p.2 rfl hp]
        have hmem2 : p.1.key ∈ (processed ++ [p]).map (fun q => q.1.key) := by
          simp
        rw [if_pos hmem2]
      · rw [lookupKey_insertByKey_other m p.2 n p.1 hk, hlk k,
          groupOfList_append_other processed n p.1 p.2 (fun hcon => hk hcon.symm)]
        have hmemiff : (k ∈ (processed ++ [p]).map (fun q => q.1.key))
            ↔ k ∈ processed.map (fun q => q.1.key) := by
          simp only [List.map_append, List.mem_append, List.map_cons, List.map_nil,
            List.mem_singleton]
          constructor
          · rintro (h | h)
            · exact h
            · exact absurd h hk
          · intro h
            exact Or.inl h
        by_cases hmem : k ∈ processed.map (fun q => q.1.key)
        · rw [if_pos hmem, if_pos (hmemiff.mpr hmem)]
        · rw [if_neg hmem, if_neg (fun hcon => hmem (hmemiff.mp hcon))]
    have hmain := ih (processed ++ [p]) (insertByKey m p.1.key p.2 n p.1)
      (fun q hq => hlt q (by simp [hq]))
      (nodup_domKeys_insertByKey hnd) hstep
    have hrw : processed ++ [p] ++ rest = processed ++ p :: rest := by simp
    rw [hrw] at hmain
    exact hmain

theorem buildByKey_char (sheets : List Sheet) :
    (domKeys (buildByKey sheets)).Nodup
    ∧ ∀ k, lookupKey (buildByKey sheets) k
        = if k ∈ allKeys sheets then
            some (groupOfList (allRows sheets) sheets.length k)
          else none := by
  have hlt : ∀ p ∈ allRows sheets, p.2 < sheets.length := by
    intro p hp
    unfold allRows at hp
    rw [List.mem_flatMap] at hp
    obtain ⟨q, hq, hpq⟩ := hp
    rw [List.mem_map] at hpq
    obtain ⟨row, _, hrow⟩ := hpq
    have hq2 := List.fst_lt_of_mem_enum hq
    rw [← hrow]
    exact hq2
  have := buildFold_char sheets.length (allRows sheets) [] [] hlt (by simp [domKeys])
    (by intro k; simp [lookupKey])
  unfold buildByKey
  exact ⟨this.1, by simpa [allKeys] using this.2⟩

/-! ## The consumption loop in first-encountered-key order -/

/-- First-occurrence deduplication: the order in which distinct keys first
appear scanning the list left to right. -/
def dedupFirst : List Key → List Key
  | [] => []
  | k :: rest => k :: dedupFirst (rest.filter (fun x => decide (x ≠ k)))
termination_by l => l.length
decreasing_by
  simp only [List.length_cons]
  exact Nat.lt_succ_of_le (List.length_filter_le _ _)

/-- The keys of `ks` that are still in `dom` when scanned in order, each
taken at its first occurrence (`dom` shrinks as keys are consumed). -/
def firstSeenIn : List Key → List Key → List Key
  | [], _ => []
  | k :: rest, dom =>
    if k ∈ dom then k :: firstSeenIn rest (dom.filter (fun x => decide (x ≠ k)))
    else firstSeenIn rest dom

/-- The `for key in &keys` loop of `match_and_merge` over a key list. -/
def consumeList (sheets : List Sheet) (params : Params) (ks : List Key)
    (st : Except SolidifyError MergeState) : Except SolidifyError MergeState :=
  ks.foldl (consumeKey sheets params) st

theorem match_and_merge_eq_consumeList (sheets : List Sheet) (params : Params) :
    match_and_merge sheets params
      = consumeList sheets params (allKeys sheets) (Except.ok (initState sheets)) := rfl

theorem consumeList_error (sheets : List Sheet) (params : Params) :
    ∀ (ks : List Key) (e : SolidifyError),
      consumeList sheets params ks (Except.error e) = Except.error e := by
  intro ks
  induction ks with
  | nil => intro e; rfl
  | cons k rest ih =>
    intro e
    show consumeList sheets params rest (consumeKey sheets params (Except.error e) k)
      = Except.error e
    rw [show consumeKey sheets params (Except.error e) k = Except.error e from rfl]
    exact ih e

theorem domKeys_removeKey {m : List (Key × List (List SheetRow))} {k : Key}
    (h : (domKeys m).Nodup) :
    domKeys (removeKey m k) = (domKeys m).filter (fun x => decide (x ≠ k)) := by
  induction m with
  | nil => rfl
  | cons e rest ih =>
    simp only [domKeys, List.map_cons, List.nodup_cons] at h
    by_cases he : e.1 = k
    · rw [removeKey, if_pos he]
      subst he
      have : (rest.map (fun q => q.1)).filter (fun x => decide (x ≠ e.1))
          = rest.map (fun q => q.1) := by
        rw [List.filter_eq_self]
        intro a ha
        simp only [decide_eq_true_eq]
        intro hcon
        subst hcon
        exact h.1 ha
      simp only [domKeys, List.map_cons, List.filter_cons]
      rw [if_neg (by simp)]
      exact this.symm
    · rw [removeKey, if_neg he]
      simp only [domKeys, List.map_cons, List.filter_cons]
      rw [if_pos (by simpa using he)]
      have ih2 := ih h.2
      simp only [domKeys] at ih2
      rw [ih2]

theorem lookupKey_removeKey_other {α : Type} (m : List (Key × α)) {k k2 : Key}
    (hne : k2 ≠ k) : lookupKey (removeKey m k) k2 = lookupKey m k2 := by
  induction m with
  | nil => rfl
  | cons e rest ih =>
    by_cases he : e.1 = k
    · rw [removeKey, if_pos he, lookupKey, if_neg (by rw [he]; exact Ne.symm hne)]
    · rw [removeKey, if_neg he]
      by_cases he2 : e.1 = k2
      · rw [lookupKey, if_pos he2, lookupKey, if_pos he2]
      · rw [lookupKey, if_neg he2, lookupKey, if_neg he2, ih]

theorem firstSeenIn_subset : ∀ (ks dom : List Key) (x : Key),
    x ∈ firstSeenIn ks dom → x ∈ dom := by
  intro ks
  induction ks with
  | nil => intro dom x h; cases h
  | cons k rest ih =>
    intro dom x h
    simp only [firstSeenIn] at h
    by_cases hk : k ∈ dom
    · rw [if_pos hk] at h
      rcases List.mem_cons.mp h with h1 | h1
      · rwa [h1]
      · exact (List.mem_filter.mp (ih _ x h1)).1
    · rw [if_neg hk] at h
      exact ih dom x h

theorem dedupFirst_subset_aux : ∀ (n : Nat) (l : List Key), l.length ≤ n →
    ∀ x ∈ dedupFirst l, x ∈ l := by
  intro n
  induction n with
  | zero =>
    intro l hl x h
    cases l with
    | nil => simp [dedupFirst] at h
    | cons k rest => simp at hl
  | succ n ih =>
    intro l hl x h
    cases l with
    | nil => simp [dedupFirst] at h
    | cons k rest =>
      simp only [dedupFirst] at h
      rcases List.mem_cons.mp h with h1 | h1
      · rw [h1]; exact List.mem_cons_self k rest
      · have hle : (rest.filter (fun y => decide (y ≠ k))).length ≤ n :=
          le_trans (List.length_filter_le _ _) (by simpa using hl)
        have := ih (rest.filter (fun y => decide (y ≠ k))) hle x h1
        exact List.mem_cons_of_mem k (List.mem_of_mem_filter this)

theorem dedupFirst_subset (l : List Key) (x : Key) (h : x ∈ dedupFirst l) : x ∈ l :=
  dedupFirst_subset_aux l.length l le_rfl x h

theorem firstSeenIn_eq_dedupFirst : ∀ (ks dom : List Key),
    firstSeenIn ks dom = dedupFirst (ks.filter (fun x => decide (x ∈ dom))) := by
  intro ks
  induction ks with
  | nil => intro dom; simp [firstSeenIn, dedupFirst]
  | cons k rest ih =>
    intro dom
    simp only [firstSeenIn]
    rw [List.filter_cons]
    by_cases hk : k ∈ dom
    · rw [if_pos hk, if_pos (by simpa using hk)]
      have hd : dedupFirst (k :: rest.filter (fun x => decide (x ∈ dom)))
          = k :: dedupFirst ((rest.filter (fun x => decide (x ∈ dom))).filter
              (fun x => decide (x ≠ k))) := by
        simp only [dedupFirst]
      rw [hd]
      congr 1
      rw [ih (dom.filter (fun x => decide (x ≠ k))), List.filter_filter]
      congr 1
      refine List.filter_congr ?_
      intro x _
      by_cases hxk : x = k
      · subst hxk
        simp
      · by_cases hxd : x ∈ dom
        · simp [List.mem_filter, hxk, hxd]
        · simp [List.mem_filter, hxk, hxd]
    · rw [if_neg hk, if_neg (by simpa using hk)]
      exact ih dom

/-- How one successful `consumeKey` changes the pending map and the
merged output, independently of the diagnostics branches. -/
theorem consumeKey_ok_shape {sheets : List Sheet} {params : Params} {s : MergeState}
    {k : Key} {row_sets : List (List SheetRow)}
    (hlk : lookupKey s.byKey k = some row_sets)
    (hma : mergeAllowed row_sets params = true) :
    ∃ s1 : MergeState, consumeKey sheets params (Except.ok s) k = Except.ok s1
      ∧ s1.byKey = removeKey s.byKey k
      ∧ s1.merged = s.merged ++ merge (row_sets.zip sheets) params := by
  simp only [consumeKey, hlk, hma, if_pos]
  by_cases hsim : 0 < params.similarity_warn_level
  · rw [if_pos hsim]
    exact ⟨_, rfl, rfl, rfl⟩
  · rw [if_neg hsim]
    exact ⟨_, rfl, rfl, rfl⟩

theorem consumeList_merged (sheets : List Sheet) (params : Params) :
    ∀ (ks : List Key) (s st : MergeState),
      (domKeys s.byKey).Nodup →
      consumeList sheets params ks (Except.ok s) = Except.ok st →
      st.merged = s.merged
        ++ (firstSeenIn ks (domKeys s.byKey)).flatMap
            (fun k => merge (((lookupKey s.byKey k).getD (emptyGroup sheets.length)).zip sheets)
              params) := by
  intro ks
  induction ks with
  | nil =>
    intro s st _ hok
    injection hok with hok
    subst hok
    simp [firstSeenIn, consumeList]
  | cons k rest ih =>
    intro s st hnd hok
    have hok2 : consumeList sheets params rest (consumeKey sheets params (Except.ok s) k)
        = Except.ok st := hok
    cases hlk : lookupKey s.byKey k with
    | none =>
      have hskip : consumeKey sheets params (Except.ok s) k = Except.ok s := by
        simp [consumeKey, hlk]
      rw [hskip] at hok2
      have hnmem : k ∉ domKeys s.byKey := (lookupKey_none_iff s.byKey k).mp hlk
      rw [show firstSeenIn (k :: rest) (domKeys s.byKey)
          = firstSeenIn rest (domKeys s.byKey) from by
        simp only [firstSeenIn]
        rw [if_neg hnmem]]
      exact ih s st hnd hok2
    | some row_sets =>
      cases hma : mergeAllowed row_sets params with
      | false =>
        have herr : consumeKey sheets params (Except.ok s) k
            = Except.error (SolidifyError.ambiguousMerge k) := by
          simp only [consumeKey, hlk, hma]
          rfl
        rw [herr, consumeList_error] at hok2
        cases hok2
      | true =>
        obtain ⟨s1, hok1, hbk, hmg⟩ := consumeKey_ok_shape hlk hma
        rw [hok1] at hok2
        have hmem : k ∈ domKeys s.byKey := lookupKey_mem_of_some hlk
        have hnd1 : (domKeys s1.byKey).Nodup := by
          rw [hbk, domKeys_removeKey hnd]
          exact hnd.filter _
        have hstep := ih s1 st hnd1 hok2
        rw [hmg, hbk, domKeys_removeKey hnd] at hstep
        rw [show firstSeenIn (k :: rest) (domKeys s.byKey)
            = k :: firstSeenIn rest ((domKeys s.byKey).filter (fun x => decide (x ≠ k)))
            from by
          simp only [firstSeenIn]
          rw [if_pos hmem]]
        rw [List.flatMap_cons, hlk]
        have hcongr : (firstSeenIn rest
              ((domKeys s.byKey).filter (fun x => decide (x ≠ k)))).flatMap
            (fun k2 => merge
              (((lookupKey (removeKey s.byKey k) k2).getD (emptyGroup sheets.length)).zip sheets)
              params)
            = (firstSeenIn rest
              ((domKeys s.byKey).filter (fun x => decide (x ≠ k)))).flatMap
            (fun k2 => merge
              (((lookupKey s.byKey k2).getD (emptyGroup sheets.length)).zip sheets) params) := by
          refine List.flatMap_congr ?_
          intro k2 hk2
          have hk2mem := firstSeenIn_subset _ _ _ hk2
          have hk2ne : k2 ≠ k := by
            have := (List.mem_filter.mp hk2mem).2
            simpa using this
          rw [lookupKey_removeKey_other s.byKey hk2ne]
        rw [hstep, hcongr]
        simp [List.append_assoc]

/-- C3: whenever consolidation succeeds, its output is exactly the
concatenation, over the distinct keys in first-encountered order (sources
in supplied order, rows top to bottom), of each key's group merged with
rows in pairing-index order; the order is fixed by the key scan alone, not
by any hash-map iteration order. -/
theorem merged_first_encounter_order :
    ∀ (sheets : List Sheet) (params : Params) (out : List (List String)),
      matchAndMergeRows sheets params = Except.ok out →
      out = (dedupFirst (allKeys sheets)).flatMap
          (fun k => merge ((groupOfList (allRows sheets) sheets.length k).zip sheets) params) := by
  intro sheets params out hok
  unfold matchAndMergeRows at hok
  cases hmm : match_and_merge sheets params with
  | error e => rw [hmm] at hok; cases hok
  | ok st =>
    rw [hmm] at hok
    injection hok with hok
    subst hok
    obtain ⟨hnd, hchar⟩ := buildByKey_char sheets
    have hmain := consumeList_merged sheets params (allKeys sheets) (initState sheets) st hnd
      (by rw [← match_and_merge_eq_consumeList]; exact hmm)
    have hdom : ∀ x ∈ allKeys sheets, x ∈ domKeys (buildByKey sheets) := by
      intro x hx
      have := hchar x
      rw [if_pos hx] at this
      exact lookupKey_mem_of_some this
    have hfs : firstSeenIn (allKeys sheets) (domKeys (buildByKey sheets))
        = dedupFirst (allKeys sheets) := by
      rw [firstSeenIn_eq_dedupFirst]
      congr 1
      rw [List.filter_eq_self]
      intro a ha
      simpa using hdom a ha
    show st.merged = (dedupFirst (allKeys sheets)).flatMap
        (fun k => merge ((groupOfList (allRows sheets) sheets.length k).zip sheets) params)
    rw [hmain,
        show (initState sheets).byKey = buildByKey sheets from rfl,
        show (initState sheets).merged = ([] : List (List String)) from rfl,
        List.nil_append, hfs]
    refine List.flatMap_congr ?_
    intro k hk
    have hkmem := dedupFirst_subset _ _ hk
    have hlkk := hchar k
    rw [if_pos hkmem] at hlkk
    rw [hlkk]
    rfl

/-- The two sheets `Sheet::new` builds for the spec's merge-completeness
example (`A=[{k:x,v:1}]`, `B=[{k:x,v:2}]`, key column 1). -/
def exTwoSheets : List Sheet :=
  [ { rows := [["x", "1"]], column_count := 2, input_index := 0,
      key_columns := { original := [some 0], sorted := [0] } },
    { rows := [["x", "2"]], column_count := 2, input_index := 1,
      key_columns := { original := [some 0], sorted := [0] } } ]

/-- Witness for C3 on the concrete two-source run: the merged output
equals the first-encountered-order concatenation of the groups. -/
theorem merged_first_encounter_order_witness :
    ([["x", "1", "2"]] : List (List String))
      = (dedupFirst (allKeys exTwoSheets)).flatMap
          (fun k => merge ((groupOfList (allRows exTwoSheets) exTwoSheets.length k).zip
            exTwoSheets) exParams) :=
  merged_first_encounter_order exTwoSheets exParams [["x", "1", "2"]] (by rfl)

/-! ## Similarity comparisons never revisit a consumed group -/

/-- Invariant of the consumption loop: the pending keys are distinct, the
first component of every recorded comparison has already been consumed
(is no longer pending), and the recorded pairs are distinct, irreflexive
and antisymmetric. -/
def ComparisonsInv (s : MergeState) : Prop :=
  (domKeys s.byKey).Nodup
  ∧ (∀ p ∈ s.comparisons, p.1 ∉ domKeys s.byKey)
  ∧ s.comparisons.Nodup
  ∧ ∀ a b : Key, (a, b) ∈ s.comparisons → a ≠ b ∧ (b, a) ∉ s.comparisons

theorem comps_map_eq (m : List (Key × List (List SheetRow))) (k : Key) :
    m.map (fun e => (k, e.1)) = (domKeys m).map (fun x => (k, x)) := by
  unfold domKeys
  rw [List.map_map]
  rfl

theorem comps_nodup {m : List (Key × List (List SheetRow))} (k : Key)
    (h : (domKeys m).Nodup) : (m.map (fun e => (k, e.1))).Nodup := by
  rw [comps_map_eq]
  refine h.map ?_
  intro x y hxy
  injection hxy with h1 h2

theorem consumeKey_comparisons_inv {sheets : List Sheet} {params : Params}
    {s s1 : MergeState} {k : Key}
    (hok : consumeKey sheets params (Except.ok s) k = Except.ok s1)
    (hinv : ComparisonsInv s) : ComparisonsInv s1 := by
  obtain ⟨hnd, hdom, hcnodup, hpairs⟩ := hinv
  cases hlk : lookupKey s.byKey k with
  | none =>
    have hs : s1 = s := by
      simp only [consumeKey, hlk] at hok
      injection hok with hok
      exact hok.symm
    subst hs
    exact ⟨hnd, hdom, hcnodup, hpairs⟩
  | some row_sets =>
    have hkdom : k ∈ domKeys s.byKey := lookupKey_mem_of_some hlk
    have hdom' : domKeys (removeKey s.byKey k)
        = (domKeys s.byKey).filter (fun x => decide (x ≠ k)) := domKeys_removeKey hnd
    have hnd' : (domKeys (removeKey s.byKey k)).Nodup := by
      rw [hdom']
      exact hnd.filter _
    have hsub : ∀ x, x ∈ domKeys (removeKey s.byKey k) → x ∈ domKeys s.byKey := by
      intro x hx
      rw [hdom'] at hx
      exact List.mem_of_mem_filter hx
    have hne_k : ∀ x, x ∈ domKeys (removeKey s.byKey k) → x ≠ k := by
      intro x hx
      rw [hdom'] at hx
      have := (List.mem_filter.mp hx).2
      simpa using this
    have hmem_comps : ∀ a2 b2 : Key,
        (a2, b2) ∈ (removeKey s.byKey k).map (fun e => (k, e.1)) →
        a2 = k ∧ b2 ∈ domKeys (removeKey s.byKey k) := by
      intro a2 b2 h2
      rw [List.mem_map] at h2
      obtain ⟨e, he, heq⟩ := h2
      injection heq with h2a h2b
      exact ⟨h2a.symm, h2b ▸ List.mem_map.mpr ⟨e, he, rfl⟩⟩
    simp only [consumeKey, hlk] at hok
    cases hma : mergeAllowed row_sets params with
    | false =>
      rw [hma] at hok
      exact absurd hok (by simp)
    | true =>
      rw [hma, if_pos (rfl : (true = true))] at hok
      by_cases hsim : 0 < params.similarity_warn_level
      · rw [if_pos hsim] at hok
        injection hok with hok
        subst hok
        refine ⟨hnd', ?_, ?_, ?_⟩
        · intro p hp
          rcases List.mem_append.mp hp with hp1 | hp1
          · intro hcon
            exact hdom p hp1 (hsub _ hcon)
          · rw [List.mem_map] at hp1
            obtain ⟨e, _, hpe⟩ := hp1
            rw [← hpe]
            intro hcon
            exact hne_k k hcon rfl
        · rw [List.nodup_append]
          refine ⟨hcnodup, comps_nodup k hnd', ?_⟩
          intro p hp hcon
          have h1 := hdom p hp
          have h2 := hmem_comps p.1 p.2 (by simpa using hcon)
          rw [h2.1] at h1
          exact h1 hkdom
        · intro a b hab
          by_cases hold : (a, b) ∈ s.comparisons
          · obtain ⟨hne, hrev⟩ := hpairs a b hold
            have hadom : a ∉ domKeys s.byKey := hdom (a, b) hold
            refine ⟨hne, ?_⟩
            intro hcon
            rcases List.mem_append.mp hcon with hc | hc
            · exact hrev hc
            · obtain ⟨hbk, hadom2⟩ := hmem_comps b a hc
              exact hadom (hsub _ hadom2)
          · rcases List.mem_append.mp hab with hc | hc
            · exact absurd hc hold
            obtain ⟨hak, hbdom2⟩ := hmem_comps a b hc
            subst hak
            refine ⟨fun hcon => hne_k b hbdom2 hcon.symm, ?_⟩
            intro hcon
            rcases List.mem_append.mp hcon with hc2 | hc2
            · exact hdom (b, a) hc2 (hsub _ hbdom2)
            · obtain ⟨hbk, _⟩ := hmem_comps b a hc2
              exact hne_k b hbdom2 hbk
      · rw [if_neg hsim] at hok
        injection hok with hok
        subst hok
        refine ⟨hnd', ?_, hcnodup, hpairs⟩
        intro p hp hcon
        exact hdom p hp (hsub _ hcon)

theorem consumeList_comparisons_inv (sheets : List Sheet) (params : Params) :
    ∀ (ks : List Key) (s st : MergeState),
      ComparisonsInv s →
      consumeList sheets params ks (Except.ok s) = Except.ok st →
      ComparisonsInv st := by
  intro ks
  induction ks with
  | nil =>
    intro s st hinv hok
    injection hok with hok
    subst hok
    exact hinv
  | cons k rest ih =>
    intro s st hinv hok
    have hok2 : consumeList sheets params rest (consumeKey sheets params (Except.ok s) k)
        = Except.ok st := hok
    cases hck : consumeKey sheets params (Except.ok s) k with
    | error e =>
      rw [hck, consumeList_error] at hok2
      cases hok2
    | ok s1 =>
      rw [hck] at hok2
      exact ih s1 st (consumeKey_comparisons_inv hck hinv) hok2

/-- C9: in any successful run, the recorded similarity-comparison events
are distinct, irreflexive and antisymmetric: once a group is consumed it
is never again a comparison target, so each unordered pair of groups is
compared at most once (attributed to whichever group is consumed first). -/
theorem comparisons_never_revisit :
    ∀ (sheets : List Sheet) (params : Params) (st : MergeState),
      match_and_merge sheets params = Except.ok st →
      st.comparisons.Nodup
      ∧ ∀ a b : Key, (a, b) ∈ st.comparisons →
          a ≠ b ∧ (b, a) ∉ st.comparisons := by
  intro sheets params st hok
  have hinv0 : ComparisonsInv (initState sheets) := by
    refine ⟨(buildByKey_char sheets).1, ?_, List.nodup_nil, ?_⟩
    · intro p hp
      cases hp
    · intro a2 b2 h2
      cases h2
  have := consumeList_comparisons_inv sheets params (allKeys sheets) (initState sheets) st hinv0
    (by rw [← match_and_merge_eq_consumeList]; exact hok)
  exact ⟨this.2.2.1, this.2.2.2⟩

/-- Witness for C9 on the two-`Id`-key run: the single comparison pair is
irreflexive, its reverse never occurs, and it occurs exactly once. -/
theorem comparisons_never_revisit_witness :
    ([KeyItem.Data "x", KeyItem.Id (RecordId.mk 0 0)] : Key)
        ≠ [KeyItem.Data "x", KeyItem.Id (RecordId.mk 1 0)]
    ∧ (([KeyItem.Data "x", KeyItem.Id (RecordId.mk 1 0)],
        [KeyItem.Data "x", KeyItem.Id (RecordId.mk 0 0)]) : Key × Key)
        ∉ ((match_and_merge exIdSheets
            { exParams with similarity_warn_level := 1 }).toOption.getD
              (initState [])).comparisons
    ∧ ((match_and_merge exIdSheets
          { exParams with similarity_warn_level := 1 }).toOption.getD
            (initState [])).comparisons.Nodup := by
  have h := comparisons_never_revisit exIdSheets { exParams with similarity_warn_level := 1 }
    ((match_and_merge exIdSheets
      { exParams with similarity_warn_level := 1 }).toOption.getD (initState []))
    (by rfl)
  have hmem : (([KeyItem.Data "x", KeyItem.Id (RecordId.mk 0 0)] : Key),
      ([KeyItem.Data "x", KeyItem.Id (RecordId.mk 1 0)] : Key))
      ∈ ((match_and_merge exIdSheets
          { exParams with similarity_warn_level := 1 }).toOption.getD
            (initState [])).comparisons :=
    show _ ∈ [(([KeyItem.Data "x", KeyItem.Id (RecordId.mk 0 0)] : Key),
        ([KeyItem.Data "x", KeyItem.Id (RecordId.mk 1 0)] : Key))] from
      List.mem_singleton.mpr rfl
  obtain ⟨hne, hrev⟩ := h.2 _ _ hmem
  exact ⟨hne, hrev, h.1⟩

/-! ## Synthetic identity keys force singleton groups -/

theorem mem_allRows {sheets : List Sheet} {p : SheetRow × Nat} (hp : p ∈ allRows sheets) :
    ∃ hj : p.2 < sheets.length,
      p.1.sheet = sheets[p.2] ∧ p.1.row_index < p.1.sheet.rows.length := by
  unfold allRows at hp
  rw [List.mem_flatMap] at hp
  obtain ⟨q, hq, hpq⟩ := hp
  rw [List.mem_map] at hpq
  obtain ⟨row, hrow, hrq⟩ := hpq
  rw [List.mem_enum_iff_getElem?] at hq
  have hqlt : q.1 < sheets.length := by
    by_contra hcon
    rw [List.getElem?_eq_none (by omega)] at hq
    cases hq
  rw [List.getElem?_eq_getElem hqlt] at hq
  injection hq with hq
  obtain ⟨hsheet, hidx⟩ := mem_toRows hrow
  subst hrq
  refine ⟨hqlt, ?_, ?_⟩
  · rw [hsheet, hq]
  · show row.row_index < row.sheet.rows.length
    rw [hsheet]
    exact hidx

theorem nodup_allRows (sheets : List Sheet) : (allRows sheets).Nodup := by
  unfold allRows
  rw [List.nodup_flatMap]
  constructor
  · intro q _
    refine (List.nodup_range _).map ?_ |>.map ?_
    · intro a b hab
      injection hab
    · intro a b hab
      injection hab with h1 h2
  · have hfst : (sheets.enum.map Prod.fst).Nodup := by
      rw [List.enum_map_fst]
      exact List.nodup_range _
    have hpair : sheets.enum.Pairwise (fun a b => a.1 ≠ b.1) :=
      List.pairwise_map.mp hfst
    refine hpair.imp ?_
    intro a b hab
    intro x hxa hxb
    rw [List.mem_map] at hxa hxb
    obtain ⟨r1, _, hr1⟩ := hxa
    obtain ⟨r2, _, hr2⟩ := hxb
    apply hab
    rw [← hr1] at hr2
    injection hr2 with h1 h2
    exact h2.symm

theorem sum_map_add {α : Type} (l : List α) (f g : α → Nat) :
    (l.map (fun x => f x + g x)).sum = (l.map f).sum + (l.map g).sum := by
  induction l with
  | nil => rfl
  | cons x xs ih =>
    simp only [List.map_cons, List.sum_cons, ih]
    omega

theorem sum_indicator : ∀ (n j c : Nat), j < n →
    ((List.range n).map (fun i => if j = i then c else 0)).sum = c := by
  intro n
  induction n with
  | zero => intro j c h; omega
  | succ n ih =>
    intro j c hj
    rw [List.range_succ, List.map_append, List.sum_append]
    by_cases hjn : j = n
    · subst hjn
      have hz : ((List.range j).map (fun i => if j = i then c else 0)).sum = 0 := by
        refine List.sum_eq_zero ?_
        intro x hx
        rw [List.mem_map] at hx
        obtain ⟨i, hi, hxi⟩ := hx
        rw [List.mem_range] at hi
        rw [← hxi, if_neg (by omega)]
      rw [hz]
      simp
    · rw [ih j c (by omega)]
      simp [hjn]

theorem groupOfList_total : ∀ (rows : List (SheetRow × Nat)) (n : Nat) (k : Key),
    (∀ p ∈ rows, p.2 < n) →
    ((groupOfList rows n k).map List.length).sum
      = (rows.filter (fun p => decide (p.1.key = k))).length := by
  intro rows
  induction rows with
  | nil =>
    intro n k _
    rw [groupOfList_nil]
    simp [emptyGroup]
  | cons p rest ih =>
    intro n k hlt
    have hp : p.2 < n := hlt p (by simp)
    have hmap : (groupOfList (p :: rest) n k).map List.length
        = (List.range n).map (fun i =>
            (if p.2 = i ∧ p.1.key = k then 1 else 0)
            + (rest.filter (fun q => decide (q.2 = i ∧ q.1.key = k))).length) := by
      unfold groupOfList
      rw [List.map_map]
      refine List.map_congr_left ?_
      intro i _
      show ((List.filter (fun q => decide (q.2 = i ∧ q.1.key = k)) (p :: rest)).map
        (fun q => q.1)).length = _
      rw [List.length_map, List.filter_cons]
      by_cases hc : p.2 = i ∧ p.1.key = k
      · rw [if_pos (by simpa using hc), if_pos hc, List.length_cons]
        omega
      · rw [if_neg (by simpa using hc), if_neg hc]
        omega
    rw [hmap, sum_map_add]
    have hsecond : ((List.range n).map (fun i =>
        (rest.filter (fun q => decide (q.2 = i ∧ q.1.key = k))).length)).sum
        = (rest.filter (fun p => decide (p.1.key = k))).length := by
      rw [← ih n k (fun q hq => hlt q (by simp [hq]))]
      congr 1
      unfold groupOfList
      rw [List.map_map]
      refine List.map_congr_left ?_
      intro i _
      exact (List.length_map _ _).symm
    rw [hsecond, List.filter_cons]
    by_cases hk : p.1.key = k
    · have hfirst : ((List.range n).map (fun i =>
          if p.2 = i ∧ p.1.key = k then 1 else 0)).sum = 1 := by
        have : ∀ i : Nat, (if p.2 = i ∧ p.1.key = k then 1 else 0)
            = (if p.2 = i then 1 else 0) := by
          intro i
          by_cases hpi : p.2 = i
          · rw [if_pos ⟨hpi, hk⟩, if_pos hpi]
          · rw [if_neg (fun hcon => hpi hcon.1), if_neg hpi]
        simp only [this]
        exact sum_indicator n p.2 1 hp
      rw [hfirst, if_pos (by simpa using hk), List.length_cons]
      omega
    · have hfirst : ((List.range n).map (fun i =>
          if p.2 = i ∧ p.1.key = k then 1 else 0)).sum = 0 := by
        refine List.sum_eq_zero ?_
        intro x hx
        rw [List.mem_map] at hx
        obtain ⟨i, _, hxi⟩ := hx
        rw [← hxi, if_neg (fun hcon => hk hcon.2)]
      rw [hfirst, if_neg (by simpa using hk)]
      omega

theorem nodup_all_eq_length_le_one {α : Type} :
    ∀ (l : List α), l.Nodup → (∀ x ∈ l, ∀ y ∈ l, x = y) → l.length ≤ 1 := by
  intro l hnd hall
  cases l with
  | nil => simp
  | cons x rest =>
    cases rest with
    | nil => simp
    | cons y rest2 =>
      exfalso
      rw [List.nodup_cons] at hnd
      exact hnd.1 (by rw [hall x (by simp) y (by simp)]; simp)

/-- C8: with a `0` among the key-column specs, every row's key carries an
`Id` item with that row's `(source index, row index)` record id, `Id`
items are equal only for equal record ids, and consequently every group
holds exactly one row in total — two distinct rows never share a group
even with identical cell data. -/
theorem id_specs_singleton_groups :
    ∀ (datas : List (List (List String))) (specs : List Int) (sheets : List Sheet),
      mkSheets datas specs = Except.ok sheets →
      (0 : Int) ∈ specs →
      (∀ s ∈ sheets, ∀ row ∈ s.toRows, KeyItem.Id row.id ∈ row.key)
      ∧ (∀ r1 r2 : RecordId, KeyItem.Id r1 = KeyItem.Id r2 ↔ r1 = r2)
      ∧ (∀ k g, lookupKey (buildByKey sheets) k = some g → (g.map List.length).sum = 1) := by
  intro datas specs sheets hmk h0
  obtain ⟨p0, hp0lt, hp0⟩ := List.mem_iff_getElem.mp h0
  obtain ⟨hlen, hall⟩ := mkSheetsFrom_ok hmk
  -- structural facts about every sheet in the list
  have hsheetfacts : ∀ j (hj : j < sheets.length),
      sheets[j].input_index = j
      ∧ ∃ conv : List (Option Nat), sheets[j].key_columns.original = conv
        ∧ conv.length = specs.length ∧ conv[p0]? = some none := by
    intro j hj
    have hnew := hall j hj
    rw [List.getD_eq_getElem sheets default hj] at hnew
    obtain ⟨count, conv, _, hconv, hs⟩ := Sheet.new_ok hnew
    obtain ⟨hclen, hpt⟩ := convertColumns_pointwise hconv
    have hz : Sheet.normalize_column (specs.getD p0 0) count = Except.ok (conv.getD p0 none) :=
      hpt p0 hp0lt
    rw [List.getD_eq_getElem specs 0 hp0lt, hp0] at hz
    have hzz : (Except.ok none : Except SolidifyError (Option Nat))
        = Except.ok (conv.getD p0 none) := by
      rw [← hz]
      rfl
    injection hzz with hzz
    have hp0conv : p0 < conv.length := by omega
    refine ⟨by rw [hs]; show 0 + j = j; omega, conv, by rw [hs]; rfl, hclen, ?_⟩
    rw [List.getElem?_eq_getElem hp0conv, ← List.getD_eq_getElem conv none hp0conv, ← hzz]
  -- the Id item each row's key carries at position p0
  have hkey_at : ∀ (p : SheetRow × Nat), p ∈ allRows sheets →
      p.1.key[p0]? = some (KeyItem.Id (RecordId.mk p.2 p.1.row_index)) := by
    intro p hp
    obtain ⟨hj, hsheet, _⟩ := mem_allRows hp
    obtain ⟨hidx, conv, horig, hclen, hcp0⟩ := hsheetfacts p.2 hj
    show (p.1.sheet.key_columns.original.map _)[p0]?
      = some (KeyItem.Id (RecordId.mk p.2 p.1.row_index))
    rw [List.getElem?_map, hsheet, horig, hcp0]
    show some (KeyItem.Id p.1.id) = _
    unfold SheetRow.id
    rw [hsheet, hidx]
  -- key equality forces row identity
  have hinj : ∀ p q : SheetRow × Nat, p ∈ allRows sheets → q ∈ allRows sheets →
      p.1.key = q.1.key → p = q := by
    intro p q hp hq hkeq
    have h1 := hkey_at p hp
    have h2 := hkey_at q hq
    rw [hkeq] at h1
    rw [h1] at h2
    injection h2 with h2
    injection h2 with h2
    injection h2 with h2a h2b
    obtain ⟨hjp, hsp, _⟩ := mem_allRows hp
    obtain ⟨hjq, hsq, _⟩ := mem_allRows hq
    have hsheets_eq : p.1.sheet = q.1.sheet := by
      rw [hsp, hsq, ← List.getD_eq_getElem sheets default hjp,
        ← List.getD_eq_getElem sheets default hjq, h2a]
    cases p with
    | mk pr pj =>
      cases q with
      | mk qr qj =>
        cases pr with
        | mk sh ri =>
          cases qr with
          | mk sh2 ri2 =>
            have ha : pj = qj := h2a
            have hb : ri = ri2 := h2b
            have hc : sh = sh2 := hsheets_eq
            rw [ha, hb, hc]
  refine ⟨?_, ?_, ?_⟩
  · -- (a) every key carries its row's Id item
    intro s hs row hrow
    obtain ⟨i, hi, hgets⟩ := List.mem_iff_getElem.mp hs
    obtain ⟨hidx, conv, horig, hclen, hcp0⟩ := hsheetfacts i hi
    have hrs := (mem_toRows hrow).1
    have hsorig : s.key_columns.original = conv := by rw [← hgets]; exact horig
    have hnone : (none : Option Nat) ∈ row.sheet.key_columns.original := by
      rw [hrs, hsorig]
      exact List.mem_iff_getElem?.mpr ⟨p0, hcp0⟩
    unfold SheetRow.key
    exact List.mem_map.mpr ⟨none, hnone, rfl⟩
  · -- (b) Id items compare as their record ids
    intro r1 r2
    constructor
    · intro h
      injection h
    · intro h
      rw [h]
  · -- (c) every group holds exactly one row
    intro k g hlkg
    obtain ⟨_, hchar⟩ := buildByKey_char sheets
    have hcg := hchar k
    by_cases hkmem : k ∈ allKeys sheets
    · rw [if_pos hkmem, hlkg] at hcg
      injection hcg with hcg
      rw [hcg]
      rw [groupOfList_total (allRows sheets) sheets.length k
        (fun p hp => (mem_allRows hp).fst)]
      have hnodupF := (nodup_allRows sheets).filter
        (fun p => decide (p.1.key = k))
      have hle := nodup_all_eq_length_le_one _ hnodupF ?_
      · obtain ⟨pk, hpk, hpkk⟩ := List.mem_map.mp hkmem
        have hpkF : pk ∈ (allRows sheets).filter (fun p => decide (p.1.key = k)) :=
          List.mem_filter.mpr ⟨hpk, by simpa using hpkk⟩
        have hpos : 0 < ((allRows sheets).filter
            (fun p => decide (p.1.key = k))).length :=
          List.length_pos.mpr (fun hcon => by rw [hcon] at hpkF; cases hpkF)
        omega
      · intro x hx y hy
        have hx2 := List.mem_filter.mp hx
        have hy2 := List.mem_filter.mp hy
        refine hinj x y hx2.1 hy2.1 ?_
        have hxk : x.1.key = k := by simpa using hx2.2
        have hyk : y.1.key = k := by simpa using hy2.2
        rw [hxk, hyk]
    · rw [if_neg hkmem, hlkg] at hcg
      cases hcg

/-- Witness for C8 on the two-`Id`-key sheets: each of the two groups
holds exactly one row. -/
theorem id_specs_singleton_groups_witness :
    (∀ s ∈ exIdSheets, ∀ row ∈ s.toRows, KeyItem.Id row.id ∈ row.key)
    ∧ (∀ r1 r2 : RecordId, KeyItem.Id r1 = KeyItem.Id r2 ↔ r1 = r2)
    ∧ (∀ k g, lookupKey (buildByKey exIdSheets) k = some g → (g.map List.length).sum = 1) :=
  id_specs_singleton_groups [[["x"]], [["x"]]] [1, 0] exIdSheets (by rfl) (by decide)

/-! ## Consolidating a single source against itself -/

/-- The key a row with cell data `r` gets when every column is a key
column in left-to-right order. -/
def keyOf (r : List String) : Key := r.map KeyItem.Data

/-- The sheet `Sheet::new` builds when the specs name every column in
order (`1, 2, …, c`). -/
def fullKeySheet (rows : List (List String)) (c j : Nat) : Sheet :=
  { rows := rows, column_count := c, input_index := j,
    key_columns := KeyColumns.new ((List.range c).map some) }

theorem check_rectangular_uniform (rows : List (List String)) (c : Nat)
    (hne : rows ≠ []) (hrect : ∀ r ∈ rows, r.length = c) :
    Sheet.check_rectangular rows = Except.ok c := by
  cases rows with
  | nil => cases hne rfl
  | cons first rest =>
    have hf : first.length = c := hrect first (by simp)
    have hfind : ((first :: rest).enum.find?
        (fun p => decide (p.2.length ≠ first.length))) = none := by
      rw [List.find?_eq_none]
      intro p hp
      have hp2 : p.2 ∈ first :: rest := by
        rw [List.mem_enum_iff_getElem?] at hp
        exact List.mem_iff_getElem?.mpr ⟨p.1, hp⟩
      have := hrect p.2 hp2
      simp [this, hf]
    show (match (first :: rest).enum.find? (fun p => decide (p.2.length ≠ first.length)) with
      | some p => Except.error (SolidifyError.irregularShape first.length p.2.length p.1)
      | none => Except.ok first.length) = Except.ok c
    rw [hfind, hf]

theorem normalize_column_pos_intro (x c : Nat) (hx : x < c) :
    Sheet.normalize_column ((x : Int) + 1) c = Except.ok (some x) := by
  simp only [Sheet.normalize_column,
    if_neg (show ¬((x : Int) + 1 = 0) by omega),
    if_pos (show (0 : Int) < (x : Int) + 1 by omega)]
  rw [if_pos (show (0 : Int) ≤ (x : Int) + 1 - 1 ∧ (x : Int) + 1 - 1 < (c : Int) by
    constructor <;> omega)]
  have ht : ((x : Int) + 1 - 1).toNat = x := by omega
  rw [ht]

theorem convertColumns_pos_range (c : Nat) : ∀ (l : List Nat), (∀ i ∈ l, i < c) →
    convertColumns (l.map (fun i : Nat => (i : Int) + 1)) c
      = Except.ok (l.map some) := by
  intro l
  induction l with
  | nil => intro _; rfl
  | cons x xs ih =>
    intro hall
    have hx : x < c := hall x (by simp)
    show (do
      let normalized ← Sheet.normalize_column ((x : Int) + 1) c
      let rest_normalized ← convertColumns (xs.map (fun i : Nat => (i : Int) + 1)) c
      Except.ok (normalized :: rest_normalized)) = Except.ok (some x :: xs.map some)
    rw [normalize_column_pos_intro x c hx, except_ok_bind,
      ih (fun i hi => hall i (by simp [hi])), except_ok_bind]

theorem check_convert_columns_pos_range (c : Nat) :
    Sheet.check_convert_columns ((List.range c).map (fun i : Nat => (i : Int) + 1)) c
      = Except.ok ((List.range c).map some) := by
  have hconv := convertColumns_pos_range c (List.range c)
    (fun i hi => List.mem_range.mp hi)
  have hneg : ((List.range c).map (fun i : Nat => (i : Int) + 1)).filter
      (fun value => decide (value < 0)) = [] := by
    rw [List.filter_eq_nil_iff]
    intro a ha
    rw [List.mem_map] at ha
    obtain ⟨i, _, hia⟩ := ha
    simp only [decide_eq_true_eq]
    omega
  show (do
    let result ← convertColumns ((List.range c).map (fun i : Nat => (i : Int) + 1)) c
    match (((List.range c).map (fun i : Nat => (i : Int) + 1)).filter
        (fun value => decide (0 < value))).max?,
      (((List.range c).map (fun i : Nat => (i : Int) + 1)).filter
        (fun value => decide (value < 0))).min? with
    | some largest, some smallest =>
      if largest - smallest ≤ (c : Nat) then
        Except.ok result
      else
        Except.error (SolidifyError.columnOrderingConflict largest smallest)
    | _, _ => Except.ok result) = Except.ok ((List.range c).map some)
  rw [hconv, except_ok_bind, hneg]
  cases hmax : (((List.range c).map (fun i : Nat => (i : Int) + 1)).filter
      (fun value => decide (0 < value))).max? with
  | none => rfl
  | some v => rfl

theorem sheet_new_full (rows : List (List String)) (c j : Nat)
    (hne : rows ≠ []) (hrect : ∀ r ∈ rows, r.length = c) :
    Sheet.new rows ((List.range c).map (fun i : Nat => (i : Int) + 1)) j
      = Except.ok (fullKeySheet rows c j) := by
  show (do
    let column_count ← Sheet.check_rectangular rows
    let converted ← Sheet.check_convert_columns
      ((List.range c).map (fun i : Nat => (i : Int) + 1)) column_count
    Except.ok { rows := rows, column_count := column_count, input_index := j,
                key_columns := KeyColumns.new converted }) = Except.ok (fullKeySheet rows c j)
  rw [check_rectangular_uniform rows c hne hrect, except_ok_bind,
    check_convert_columns_pos_range c, except_ok_bind]
  rfl

theorem mkSheets_full (rows : List (List String)) (c : Nat)
    (hne : rows ≠ []) (hrect : ∀ r ∈ rows, r.length = c) :
    mkSheets [rows, rows] ((List.range c).map (fun i : Nat => (i : Int) + 1))
      = Except.ok [fullKeySheet rows c 0, fullKeySheet rows c 1] := by
  show (do
    let sheet ← Sheet.new rows ((List.range c).map (fun i : Nat => (i : Int) + 1)) 0
    let sheets ← mkSheetsFrom [rows] ((List.range c).map (fun i : Nat => (i : Int) + 1)) 1
    Except.ok (sheet :: sheets))
    = Except.ok [fullKeySheet rows c 0, fullKeySheet rows c 1]
  rw [sheet_new_full rows c 0 hne hrect, except_ok_bind]
  have h1 : mkSheetsFrom [rows] ((List.range c).map (fun i : Nat => (i : Int) + 1)) 1
      = Except.ok [fullKeySheet rows c 1] := by
    show (do
      let sheet ← Sheet.new rows ((List.range c).map (fun i : Nat => (i : Int) + 1)) 1
      let sheets ← mkSheetsFrom [] ((List.range c).map (fun i : Nat => (i : Int) + 1)) 2
      Except.ok (sheet :: sheets)) = Except.ok [fullKeySheet rows c 1]
    rw [sheet_new_full rows c 1 hne hrect, except_ok_bind]
    rfl
  rw [h1, except_ok_bind]

theorem insertSorted_le_head (x : Nat) (l : List Nat) (h : ∀ y ∈ l, x ≤ y) :
    insertSorted x l = x :: l := by
  cases l with
  | nil => rfl
  | cons y ys => exact if_pos (h y (by simp))

theorem sortNat_sorted_fix : ∀ l : List Nat, l.Pairwise (· ≤ ·) → sortNat l = l := by
  intro l
  induction l with
  | nil => intro _; rfl
  | cons x xs ih =>
    intro hp
    rw [List.pairwise_cons] at hp
    show insertSorted x (sortNat xs) = x :: xs
    rw [ih hp.2, insertSorted_le_head x xs hp.1]

theorem sorted_full (rows : List (List String)) (c j : Nat) :
    (fullKeySheet rows c j).key_columns.sorted = List.range c := by
  show KeyColumns.sorted_of ((List.range c).map some) = List.range c
  unfold KeyColumns.sorted_of
  rw [List.flatMap_map]
  have hfm : (List.range c).flatMap
      (fun i => match some i with | some index => [index] | none => ([] : List Nat))
      = List.range c := by
    have : ∀ bl : List Nat, bl.flatMap
        (fun i => match some i with | some index => [index] | none => ([] : List Nat))
        = bl := by
      intro bl
      induction bl with
      | nil => rfl
      | cons b bs ihb => rw [List.flatMap_cons, ihb]; rfl
    exact this (List.range c)
  rw [hfm]
  exact sortNat_sorted_fix (List.range c)
    ((List.pairwise_lt_range c).imp (fun h => Nat.le_of_lt h))

theorem key_full (rows : List (List String)) (c j : Nat)
    (hrect : ∀ r ∈ rows, r.length = c) (i : Nat) (hi : i < rows.length) :
    (SheetRow.mk (fullKeySheet rows c j) i).key = keyOf (rows.getD i []) := by
  have hlen : (rows.getD i []).length = c :=
    hrect (rows.getD i []) (by rw [List.getD_eq_getElem rows [] hi]; exact List.getElem_mem hi)
  show ((List.range c).map some).map (fun column =>
    match column with
    | some index => KeyItem.Data ((SheetRow.mk (fullKeySheet rows c j) i).data.getD index "")
    | none => KeyItem.Id (SheetRow.mk (fullKeySheet rows c j) i).id) = keyOf (rows.getD i [])
  rw [List.map_map]
  show (List.range c).map
    (fun index => KeyItem.Data ((rows.getD i []).getD index "")) = keyOf (rows.getD i [])
  rw [← hlen]
  exact range_map_getD (rows.getD i []) "" KeyItem.Data

theorem toRows_map_key_full (rows : List (List String)) (c j : Nat)
    (hrect : ∀ r ∈ rows, r.length = c) :
    (fullKeySheet rows c j).toRows.map SheetRow.key = rows.map keyOf := by
  show ((List.range rows.length).map
      (fun index => SheetRow.mk (fullKeySheet rows c j) index)).map SheetRow.key
    = rows.map keyOf
  rw [List.map_map]
  have hcg : (List.range rows.length).map
      (fun index => (SheetRow.mk (fullKeySheet rows c j) index).key)
      = (List.range rows.length).map (fun index => keyOf (rows.getD index [])) := by
    refine List.map_congr_left ?_
    intro i hi
    exact key_full rows c j hrect i (List.mem_range.mp hi)
  show (List.range rows.length).map
    (fun index => (SheetRow.mk (fullKeySheet rows c j) index).key) = rows.map keyOf
  rw [hcg]
  exact range_map_getD rows [] keyOf

theorem allRows_two (S0 S1 : Sheet) :
    allRows [S0, S1]
      = S0.toRows.map (fun row => (row, 0)) ++ S1.toRows.map (fun row => (row, 1)) := by
  show ([(0, S0), (1, S1)] : List (Nat × Sheet)).flatMap
      (fun p => p.2.toRows.map (fun row => (row, p.1)))
    = S0.toRows.map (fun row => (row, 0)) ++ S1.toRows.map (fun row => (row, 1))
  rw [List.flatMap_cons, List.flatMap_cons, List.flatMap_nil, List.append_nil]

theorem allKeys_full (rows : List (List String)) (c : Nat)
    (hrect : ∀ r ∈ rows, r.length = c) :
    allKeys [fullKeySheet rows c 0, fullKeySheet rows c 1]
      = rows.map keyOf ++ rows.map keyOf := by
  unfold allKeys
  rw [allRows_two, List.map_append, List.map_map, List.map_map]
  show (fullKeySheet rows c 0).toRows.map SheetRow.key
      ++ (fullKeySheet rows c 1).toRows.map SheetRow.key = _
  rw [toRows_map_key_full rows c 0 hrect, toRows_map_key_full rows c 1 hrect]

theorem keyOf_inj {r1 r2 : List String} (h : keyOf r1 = keyOf r2) : r1 = r2 := by
  have hinj : Function.Injective KeyItem.Data := by
    intro a b hab
    injection hab
  exact (List.map_injective_iff.mpr hinj) h

theorem keyOf_nodup {rows : List (List String)} (h : rows.Nodup) :
    (rows.map keyOf).Nodup :=
  h.map (fun a b hab => keyOf_inj hab)

/-- The cells one section contributes to a merged row when the same real
row appears in both of two sources. -/
def mergeDupCell : SheetRowSection → List String
  | SheetRowSection.Key v => [v]
  | SheetRowSection.NonKey vs => vs ++ vs

theorem mergeSection_dup (sp : List SheetRowSection) (p : Nat) :
    mergeSection [(sp, true), (sp, true)] p
      = mergeDupCell (sp.getD p (SheetRowSection.NonKey [])) := by
  simp only [mergeSection, List.foldl_cons, List.foldl_nil]
  cases h : sp.getD p (SheetRowSection.NonKey []) with
  | Key v =>
    rw [List.getD_eq_getElem?_getD] at h
    simp [mergeSectionStep, h, mergeDupCell]
  | NonKey vs =>
    rw [List.getD_eq_getElem?_getD] at h
    simp [mergeSectionStep, h, mergeDupCell]

theorem merge_row_dup (r0 r1 : SheetRow) (S0 S1 : Sheet) (params : Params)
    (h : r1.split_by_key = r0.split_by_key) :
    merge_row [(some r0, S0), (some r1, S1)] params
      = r0.split_by_key.flatMap mergeDupCell := by
  have hsplit : mergeSplit [(some r0, S0), (some r1, S1)] params
      = [(r0.split_by_key, true), (r0.split_by_key, true)] := by
    show [(r0.split_by_key, true), (r1.split_by_key, true)]
      = [(r0.split_by_key, true), (r0.split_by_key, true)]
    rw [h]
  unfold merge_row
  rw [hsplit]
  show (List.range r0.split_by_key.length).flatMap
      (fun section_index =>
        mergeSection [(r0.split_by_key, true), (r0.split_by_key, true)] section_index)
    = r0.split_by_key.flatMap mergeDupCell
  have hpt : ∀ p, mergeSection [(r0.split_by_key, true), (r0.split_by_key, true)] p
      = mergeDupCell (r0.split_by_key.getD p (SheetRowSection.NonKey [])) :=
    fun p => mergeSection_dup r0.split_by_key p
  simp only [hpt]
  exact range_flatMap_getD r0.split_by_key (SheetRowSection.NonKey []) mergeDupCell

theorem splitRec_dense_flatMap (data : List String) :
    ∀ (k start : Nat), start + k = data.length →
      (splitRec data start (List.range' start k)).flatMap mergeDupCell
        = (List.range' start k).map (fun i => data.getD i "") := by
  intro k
  induction k with
  | zero =>
    intro start h
    show (splitRec data start []).flatMap mergeDupCell = []
    have hs : slice data start data.length = [] := by
      unfold slice
      rw [show data.length - start = 0 by omega]
      rfl
    simp [splitRec, hs, mergeDupCell]
  | succ k ih =>
    intro start h
    rw [List.range'_succ]
    simp only [splitRec, List.flatMap_cons, List.map_cons]
    have hs : slice data start start = [] := by
      unfold slice
      rw [Nat.sub_self]
      rfl
    rw [hs, ih (start + 1) (by omega)]
    show ([] ++ [] : List String) ++ ([data.getD start ""] ++ _) = _
    simp

theorem range_map_getD_self {α : Type} (l : List α) (d : α) :
    (List.range l.length).map (fun i => l.getD i d) = l := by
  have h := range_map_getD l d id
  rw [List.map_id] at h
  exact h

theorem split_flat_full (c : Nat) (d : List String) (hlen : d.length = c) :
    ((KeyColumns.new ((List.range c).map some)).split d).flatMap mergeDupCell = d := by
  rw [split_eq_splitRec]
  rw [show (KeyColumns.new ((List.range c).map some)).sorted = List.range c from
    sorted_full [] c 0]
  rw [List.range_eq_range']
  rw [splitRec_dense_flatMap d c 0 (by omega)]
  rw [← List.range_eq_range', ← hlen]
  exact range_map_getD_self d ""

theorem merge_two_singles (p0 p1 : SheetRow) (S0 S1 : Sheet) (params : Params) :
    merge [([p0], S0), ([p1], S1)] params
      = [merge_row [(some p0, S0), (some p1, S1)] params] := rfl

theorem filter_key_singleton : ∀ (L : List SheetRow) (q0 : SheetRow) (k : Key),
    q0 ∈ L → q0.key = k → (L.map SheetRow.key).Nodup →
    L.filter (fun q => decide (q.key = k)) = [q0] := by
  intro L
  induction L with
  | nil => intro q0 k h; cases h
  | cons a t ih =>
    intro q0 k hmem hk hnd
    rw [List.map_cons, List.nodup_cons] at hnd
    rw [List.filter_cons]
    by_cases hak : a.key = k
    · rw [if_pos (by simpa using hak)]
      have hq0a : q0 = a := by
        rcases List.mem_cons.mp hmem with h1 | h1
        · exact h1
        · exact absurd (by rw [hak, ← hk]; exact List.mem_map.mpr ⟨q0, h1, rfl⟩) hnd.1
      have ht : t.filter (fun q => decide (q.key = k)) = [] := by
        rw [List.filter_eq_nil_iff]
        intro q hq
        simp only [decide_eq_true_eq]
        intro hqk
        exact hnd.1 (by rw [hak, ← hqk]; exact List.mem_map.mpr ⟨q, hq, rfl⟩)
      rw [ht, hq0a]
    · rw [if_neg (by simpa using hak)]
      have hq0t : q0 ∈ t := by
        rcases List.mem_cons.mp hmem with h1 | h1
        · exact absurd (by rw [h1] at hk; exact hk) hak
        · exact h1
      exact ih q0 k hq0t hk hnd.2

theorem dedupFirst_append_self : ∀ (K : List Key), K.Nodup → dedupFirst (K ++ K) = K := by
  intro K
  induction K with
  | nil => intro _; simp only [List.nil_append]; simp only [dedupFirst]
  | cons x t ih =>
    intro hnd
    rw [List.nodup_cons] at hnd
    rw [List.cons_append]
    simp only [dedupFirst]
    congr 1
    rw [List.filter_append, List.filter_cons]
    rw [if_neg (by simp)]
    have hft : t.filter (fun y => decide (y ≠ x)) = t := by
      rw [List.filter_eq_self]
      intro a ha
      simp only [decide_eq_true_eq]
      intro hax
      exact hnd.1 (hax ▸ ha)
    rw [hft]
    exact ih hnd.2

theorem lookupKey_removeKey_self (m : List (Key × List (List SheetRow))) (k : Key)
    (hnd : (domKeys m).Nodup) : lookupKey (removeKey m k) k = none := by
  induction m with
  | nil => rfl
  | cons e rest ih =>
    simp only [domKeys, List.map_cons, List.nodup_cons] at hnd
    by_cases he : e.1 = k
    · rw [removeKey, if_pos he]
      refine (lookupKey_none_iff rest k).mpr ?_
      intro hmem
      exact hnd.1 (by rw [he]; exact hmem)
    · rw [removeKey, if_neg he, lookupKey, if_neg he]
      exact ih hnd.2

theorem consumeList_ok (sheets : List Sheet) (params : Params) :
    ∀ (ks : List Key) (s : MergeState), (domKeys s.byKey).Nodup →
      (∀ k g, lookupKey s.byKey k = some g → mergeAllowed g params = true) →
      ∃ st, consumeList sheets params ks (Except.ok s) = Except.ok st := by
  intro ks
  induction ks with
  | nil => intro s _ _; exact ⟨s, rfl⟩
  | cons k rest ih =>
    intro s hnd hallow
    show ∃ st, consumeList sheets params rest (consumeKey sheets params (Except.ok s) k)
      = Except.ok st
    cases hlk : lookupKey s.byKey k with
    | none =>
      rw [show consumeKey sheets params (Except.ok s) k = Except.ok s from by
        simp [consumeKey, hlk]]
      exact ih s hnd hallow
    | some g =>
      have hma := hallow k g hlk
      obtain ⟨s1, hok, hbk, _⟩ := consumeKey_ok_shape hlk hma
      rw [hok]
      refine ih s1 ?_ ?_
      · rw [hbk, domKeys_removeKey hnd]
        exact hnd.filter _
      · intro k2 g2 hl2
        rw [hbk] at hl2
        by_cases hk2 : k2 = k
        · subst hk2
          rw [lookupKey_removeKey_self s.byKey k2 hnd] at hl2
          cases hl2
        · rw [lookupKey_removeKey_other s.byKey hk2] at hl2
          exact hallow k2 g2 hl2

theorem groupOfList_two (S0 S1 : Sheet) (k : Key) (q0 q1 : SheetRow)
    (h0 : S0.toRows.filter (fun q => decide (q.key = k)) = [q0])
    (h1 : S1.toRows.filter (fun q => decide (q.key = k)) = [q1]) :
    groupOfList (allRows [S0, S1]) 2 k = [[q0], [q1]] := by
  have hfilter : ∀ (L : List SheetRow) (j i : Nat),
      ((L.map (fun row => (row, j))).filter
        (fun p => decide (p.2 = i ∧ p.1.key = k))).map (fun p => p.1)
      = if j = i then L.filter (fun q => decide (q.key = k)) else [] := by
    intro L j i
    rw [List.filter_map, List.map_map]
    by_cases hj : j = i
    · rw [if_pos hj]
      have hcg : L.filter ((fun p : SheetRow × Nat => decide (p.2 = i ∧ p.1.key = k))
            ∘ (fun row => (row, j)))
          = L.filter (fun q => decide (q.key = k)) := by
        refine List.filter_congr ?_
        intro q _
        simp [Function.comp, hj]
      rw [hcg]
      have hid : (L.filter (fun q => decide (q.key = k))).map
          ((fun p : SheetRow × Nat => p.1) ∘ (fun row => (row, j)))
          = (L.filter (fun q => decide (q.key = k))).map id := by
        refine List.map_congr_left ?_
        intro q _
        rfl
      rw [hid, List.map_id]
    · rw [if_neg hj]
      have hnil : L.filter ((fun p : SheetRow × Nat => decide (p.2 = i ∧ p.1.key = k))
            ∘ (fun row => (row, j))) = [] := by
        rw [List.filter_eq_nil_iff]
        intro q _
        simp [Function.comp, hj]
      rw [hnil]
      rfl
  show [((allRows [S0, S1]).filter
      (fun p => decide (p.2 = 0 ∧ p.1.key = k))).map (fun p => p.1),
    ((allRows [S0, S1]).filter
      (fun p => decide (p.2 = 1 ∧ p.1.key = k))).map (fun p => p.1)] = [[q0], [q1]]
  rw [allRows_two, List.filter_append, List.filter_append, List.map_append, List.map_append]
  rw [hfilter S0.toRows 0 0, hfilter S1.toRows 1 0, hfilter S0.toRows 0 1,
    hfilter S1.toRows 1 1]
  simp only [if_pos rfl, if_neg (by omega : ¬(1 = 0)), if_neg (by omega : ¬(0 = 1))]
  rw [h0, h1]
  rfl

theorem flatMap_singleton_id {α : Type} : ∀ (l : List α) (f : α → List α),
    (∀ x ∈ l, f x = [x]) → l.flatMap f = l := by
  intro l
  induction l with
  | nil => intro f _; rfl
  | cons x xs ih =>
    intro f hf
    rw [List.flatMap_cons, hf x (by simp), ih f (fun y hy => hf y (by simp [hy]))]
    rfl

theorem row_facts_full (rows : List (List String)) (c : Nat)
    (hrect : ∀ r ∈ rows, r.length = c) (hnd : rows.Nodup)
    (r : List String) (hr : r ∈ rows) :
    ∃ q0 q1 : SheetRow,
      (fullKeySheet rows c 0).toRows.filter (fun q => decide (q.key = keyOf r)) = [q0]
      ∧ (fullKeySheet rows c 1).toRows.filter (fun q => decide (q.key = keyOf r)) = [q1]
      ∧ q1.split_by_key = q0.split_by_key
      ∧ q0.split_by_key.flatMap mergeDupCell = r := by
  obtain ⟨i, hi, hri⟩ := List.mem_iff_getElem.mp hr
  have hgd : rows.getD i [] = r := by
    rw [List.getD_eq_getElem rows [] hi]
    exact hri
  have hmemT : ∀ j : Nat, SheetRow.mk (fullKeySheet rows c j) i
      ∈ (fullKeySheet rows c j).toRows := by
    intro j
    exact List.mem_map.mpr ⟨i, List.mem_range.mpr hi, rfl⟩
  have hkey : ∀ j : Nat, (SheetRow.mk (fullKeySheet rows c j) i).key = keyOf r := by
    intro j
    rw [key_full rows c j hrect i hi, hgd]
  have hndk : ∀ j : Nat, ((fullKeySheet rows c j).toRows.map SheetRow.key).Nodup := by
    intro j
    rw [toRows_map_key_full rows c j hrect]
    exact keyOf_nodup hnd
  refine ⟨SheetRow.mk (fullKeySheet rows c 0) i, SheetRow.mk (fullKeySheet rows c 1) i,
    ?_, ?_, ?_, ?_⟩
  · exact filter_key_singleton _ _ _ (hmemT 0) (hkey 0) (hndk 0)
  · exact filter_key_singleton _ _ _ (hmemT 1) (hkey 1) (hndk 1)
  · rfl
  · show ((KeyColumns.new ((List.range c).map some)).split (rows.getD i [])).flatMap
      mergeDupCell = r
    rw [hgd]
    exact split_flat_full c r (hrect r hr)

/-- C7 counterexample: with multi-merge disabled, consolidating the
two-row source `[[x,y],[x,y]]` against itself with key columns `1, 2`
covering both columns does not reproduce the source — the duplicated
rows put two rows of each sheet in one group, and consumption fails with
the ambiguity error instead of succeeding. -/
theorem single_source_roundtrip_counterexample :
    solidifyData [[["x", "y"], ["x", "y"]], [["x", "y"], ["x", "y"]]]
        ((List.range 2).map (fun i : Nat => (i : Int) + 1)) exParams
      = Except.error (SolidifyError.ambiguousMerge [KeyItem.Data "x", KeyItem.Data "y"]) := by
  rfl

/-- C7 (amended): consolidating a single nonempty rectangular source with
pairwise-distinct rows against itself, with the key-column specs
`1, 2, …, c` covering all of its `c` columns, reproduces that source
unchanged, row for row — same rows, same order — for any engine
parameters that pass the degenerate-input guard (the single-column
override set, or at least two columns).  With multi-merge disabled, a
source containing duplicated rows instead fails with the ambiguous-merge
error, as the counterexample shows. -/
theorem single_source_roundtrip (rows : List (List String)) (c : Nat) (params : Params)
    (hne : rows ≠ []) (hrect : ∀ r ∈ rows, r.length = c) (hnd : rows.Nodup)
    (hsc : params.allow_single_column = true ∨ 2 ≤ c) :
    solidifyData [rows, rows] ((List.range c).map (fun i : Nat => (i : Int) + 1)) params
      = Except.ok rows := by
  have hmk := mkSheets_full rows c hne hrect
  show (do
    let sheets ← mkSheets [rows, rows] ((List.range c).map (fun i : Nat => (i : Int) + 1))
    let _ ← ensure_proper_delimiter sheets params
    matchAndMergeRows sheets params) = Except.ok rows
  rw [hmk, except_ok_bind]
  have hdelim : ensure_proper_delimiter [fullKeySheet rows c 0, fullKeySheet rows c 1] params
      = Except.ok () := by
    unfold ensure_proper_delimiter
    refine if_pos ?_
    rcases hsc with hflag | hc2
    · rw [hflag, Bool.true_or]
    · refine Bool.or_eq_true_iff.mpr (Or.inr ?_)
      rw [List.any_eq_true]
      refine ⟨fullKeySheet rows c 0, by simp, ?_⟩
      rw [List.any_eq_true]
      have hpos : 0 < rows.length := List.length_pos.mpr hne
      refine ⟨SheetRow.mk (fullKeySheet rows c 0) 0, List.mem_map.mpr
        ⟨0, List.mem_range.mpr hpos, rfl⟩, ?_⟩
      have hdl : (SheetRow.mk (fullKeySheet rows c 0) 0).data.length = c := by
        show (rows.getD 0 []).length = c
        refine hrect (rows.getD 0 []) ?_
        rw [List.getD_eq_getElem rows [] hpos]
        exact List.getElem_mem hpos
      rw [decide_eq_true_eq, hdl]
      omega
  rw [hdelim, except_ok_bind]
  obtain ⟨hBKnd, hBKchar⟩ := buildByKey_char [fullKeySheet rows c 0, fullKeySheet rows c 1]
  have hKnd := keyOf_nodup hnd
  have hAK := allKeys_full rows c hrect
  have hrowF : ∀ r ∈ rows,
      merge (((lookupKey (buildByKey [fullKeySheet rows c 0, fullKeySheet rows c 1])
          (keyOf r)).getD
          (emptyGroup ([fullKeySheet rows c 0, fullKeySheet rows c 1] : List Sheet).length)).zip
        [fullKeySheet rows c 0, fullKeySheet rows c 1]) params = [r] := by
    intro r hr
    obtain ⟨q0, q1, h0, h1, hsp, hflat⟩ := row_facts_full rows c hrect hnd r hr
    have hkmem : keyOf r ∈ allKeys [fullKeySheet rows c 0, fullKeySheet rows c 1] := by
      rw [hAK]
      exact List.mem_append.mpr (Or.inl (List.mem_map.mpr ⟨r, hr, rfl⟩))
    have hlk := hBKchar (keyOf r)
    rw [if_pos hkmem] at hlk
    rw [hlk]
    show merge ((groupOfList (allRows [fullKeySheet rows c 0, fullKeySheet rows c 1])
        ([fullKeySheet rows c 0, fullKeySheet rows c 1] : List Sheet).length (keyOf r)).zip
      [fullKeySheet rows c 0, fullKeySheet rows c 1]) params = [r]
    rw [show ([fullKeySheet rows c 0, fullKeySheet rows c 1] : List Sheet).length = 2 from rfl]
    rw [groupOfList_two (fullKeySheet rows c 0) (fullKeySheet rows c 1) (keyOf r) q0 q1 h0 h1]
    rw [show ([[q0], [q1]] : List (List SheetRow)).zip
        [fullKeySheet rows c 0, fullKeySheet rows c 1]
      = [([q0], fullKeySheet rows c 0), ([q1], fullKeySheet rows c 1)] from rfl]
    rw [merge_two_singles, merge_row_dup q0 q1 _ _ params hsp, hflat]
  have hallow : ∀ k g,
      lookupKey (buildByKey [fullKeySheet rows c 0, fullKeySheet rows c 1]) k = some g →
      mergeAllowed g params = true := by
    intro k g hlkg
    have hkmem : k ∈ allKeys [fullKeySheet rows c 0, fullKeySheet rows c 1] := by
      by_contra hn
      have hch := hBKchar k
      rw [if_neg hn, hlkg] at hch
      cases hch
    have hchar := hBKchar k
    rw [if_pos hkmem, hlkg] at hchar
    injection hchar with hchar
    have hkK : k ∈ rows.map keyOf := by
      rw [hAK] at hkmem
      rcases List.mem_append.mp hkmem with h | h <;> exact h
    obtain ⟨r, hr, hkr⟩ := List.mem_map.mp hkK
    obtain ⟨q0, q1, h0, h1, _, _⟩ := row_facts_full rows c hrect hnd r hr
    rw [hchar]
    rw [show ([fullKeySheet rows c 0, fullKeySheet rows c 1] : List Sheet).length = 2 from rfl]
    rw [← hkr]
    rw [groupOfList_two (fullKeySheet rows c 0) (fullKeySheet rows c 1) (keyOf r) q0 q1 h0 h1]
    simp [mergeAllowed]
  obtain ⟨st, hok⟩ := consumeList_ok
    [fullKeySheet rows c 0, fullKeySheet rows c 1] params
    (allKeys [fullKeySheet rows c 0, fullKeySheet rows c 1])
    (initState [fullKeySheet rows c 0, fullKeySheet rows c 1]) hBKnd hallow
  have hmg := consumeList_merged [fullKeySheet rows c 0, fullKeySheet rows c 1] params
    (allKeys [fullKeySheet rows c 0, fullKeySheet rows c 1])
    (initState [fullKeySheet rows c 0, fullKeySheet rows c 1]) st hBKnd hok
  rw [show (initState [fullKeySheet rows c 0, fullKeySheet rows c 1]).merged = [] from rfl,
    List.nil_append, firstSeenIn_eq_dedupFirst] at hmg
  have hfil : (allKeys [fullKeySheet rows c 0, fullKeySheet rows c 1]).filter
      (fun x => decide (x ∈ domKeys
        (initState [fullKeySheet rows c 0, fullKeySheet rows c 1]).byKey))
      = allKeys [fullKeySheet rows c 0, fullKeySheet rows c 1] := by
    rw [List.filter_eq_self]
    intro k hk
    simp only [decide_eq_true_eq]
    have hch := hBKchar k
    rw [if_pos hk] at hch
    exact lookupKey_mem_of_some hch
  rw [hfil, hAK, dedupFirst_append_self (rows.map keyOf) hKnd, List.flatMap_map] at hmg
  have hmg2 : st.merged = rows := by
    rw [hmg]
    refine flatMap_singleton_id rows _ ?_
    intro r hr
    exact hrowF r hr
  show (match_and_merge [fullKeySheet rows c 0, fullKeySheet rows c 1] params).map
    (fun s => s.merged) = Except.ok rows
  rw [match_and_merge_eq_consumeList, hok]
  show Except.ok st.merged = Except.ok rows
  rw [hmg2]

/-- Witness for the amended C7 on the concrete two-row source
`[[a,b],[c,d]]` consolidated against itself with key columns `1, 2`. -/
theorem single_source_roundtrip_witness :
    solidifyData [[["a", "b"], ["c", "d"]], [["a", "b"], ["c", "d"]]]
        ((List.range 2).map (fun i : Nat => (i : Int) + 1)) exParams
      = Except.ok [["a", "b"], ["c", "d"]] :=
  single_source_roundtrip [["a", "b"], ["c", "d"]] 2 exParams
    (by decide) (by decide) (by decide) (Or.inr (by decide))

end Solidify
